import Mathlib

/-!
Verification of the bignum arithmetic engine in src/bn.c.

Configuration of the source (the most complete revision):
  BN_BITS = 64, BN_BASE = uint16_t, BN_EXT = uint32_t, BN_EXT_SIGNED = int32_t,
  BN_SZ = BN_BITS/8/sizeof(BN_BASE) = 4, BN_BASE_MAX = 0xFFFF, BN_BASE_BITS = 16,
  BN_TRAP_NEGATIVE is #undef-ed (the default build).

A BIGNUM is a little-endian array of BN_SZ limbs; here it is embedded as a
`List Nat` of length BN_SZ whose entries are below 2^16 (predicate `bn_wf`).
`bnval` maps a limb list to the unsigned integer it represents.

Bitwise C idioms are translated arithmetically: for non-negative `m`,
`m & BN_BASE_MAX` is `m % 2^16` and `m >>= 16` is `m / 2^16`; for the signed
accumulator of bn_sub (arithmetic shift, two's-complement masking) they are
`Int.emod m (2^16)` (always in [0, 2^16)) and `Int.ediv m (2^16)` (floor
division, since the divisor is positive).

C functions that write through pointers become functions returning their
outputs; a `BIGNUM_P` that may be NULL becomes a `Bool` flag telling whether
the output is requested, with the corresponding output an `Option BIGNUM`
(`none` = the buffer was never written).  The while-loops of bn_mul,
bn_powmod and bn_load_int are bounded by a fuel argument; the fuel chosen at
the call sites (BN_BITS + 1, resp. BN_SZ + 1) dominates the number of
iterations the C loop can execute on any well-formed input, so the
out-of-fuel branches are unreachable there.
-/

set_option maxRecDepth 10000

/-- Desired size of a BIGNUM in bits (#define BN_BITS 64). -/
def BN_BITS : Nat := 64

/-- Number of bits in a BN_BASE element (BN_BASE is uint16_t). -/
def BN_BASE_BITS : Nat := 16

/-- Number of BN_BASE elements required to store BN_BITS bits:
    BN_BITS/8/sizeof(BN_BASE). -/
def BN_SZ : Nat := BN_BITS / 8 / 2

/-- Maximum value of a single BN_BASE element ((BN_BASE)-1 = 0xFFFF). -/
def BN_BASE_MAX : Nat := 2 ^ BN_BASE_BITS - 1

/-- Big number type: little-endian list of limbs (index 0 = least significant). -/
abbrev BIGNUM := List Nat

/-- Error codes of the engine (enum BN_ERR in src/bn.c). -/
inductive BN_ERR where
  | BN_OK
  | BN_E_OVERFLOW
  | BN_E_NEGATIVE
  | BN_E_DIVIDE_BY_ZERO
deriving DecidableEq, Repr

/-- Value represented by a limb list: sum of limb[i] * (2^16)^i. -/
def bnval : BIGNUM → Nat
  | [] => 0
  | x :: xs => x + 2 ^ BN_BASE_BITS * bnval xs

/-- Well-formed bignum: exactly BN_SZ limbs, each within [0, BN_BASE_MAX]. -/
def bn_wf (a : BIGNUM) : Prop := a.length = BN_SZ ∧ ∀ x ∈ a, x < 2 ^ BN_BASE_BITS

instance (a : BIGNUM) : Decidable (bn_wf a) := by
  unfold bn_wf; infer_instance

/-- Loop of bn_add: m += a[i] + b[i]; out[i] = m & BN_BASE_MAX; m >>= 16.
    Returns the output limbs and the final carry m. -/
def bn_add_loop : List Nat → List Nat → Nat → List Nat × Nat
  | a :: as, b :: bs, m =>
    let m1 := m + (a + b)
    let rest := bn_add_loop as bs (m1 / 2 ^ BN_BASE_BITS)
    (m1 % 2 ^ BN_BASE_BITS :: rest.1, rest.2)
  | _, _, m => ([], m)

/-- bn_add from src/bn.c: limbwise addition with carry; a non-zero carry out
    of the top limb is reported as BN_E_OVERFLOW (output still written). -/
def bn_add (a b : BIGNUM) : BN_ERR × BIGNUM :=
  let r := bn_add_loop a b 0
  (if r.2 ≠ 0 then BN_ERR.BN_E_OVERFLOW else BN_ERR.BN_OK, r.1)

/-- Loop of bn_sub: m = a[i] - b[i] + m; out[i] = m & BN_BASE_MAX; m >>= 16,
    on the signed accumulator BN_EXT_SIGNED.  Returns output limbs and the
    final borrow m (0 or -1). -/
def bn_sub_loop : List Nat → List Nat → Int → List Nat × Int
  | a :: as, b :: bs, m =>
    let m1 : Int := ((a : Int) - (b : Int)) + m
    let rest := bn_sub_loop as bs (m1 / ((2 ^ BN_BASE_BITS : Nat) : Int))
    ((m1 % ((2 ^ BN_BASE_BITS : Nat) : Int)).toNat :: rest.1, rest.2)
  | _, _, m => ([], m)

/-- bn_sub from src/bn.c.  BN_TRAP_NEGATIVE is #undef-ed in this build, so the
    final borrow is ignored and the function always returns BN_OK with the
    wrapped (two's-complement style) result. -/
def bn_sub (a b : BIGNUM) : BN_ERR × BIGNUM :=
  (BN_ERR.BN_OK, (bn_sub_loop a b 0).1)

/-- bn_copy: memcpy of the limbs. -/
def bn_copy (a : BIGNUM) : BIGNUM := a

/-- bn_clear: memset of the limbs to zero. -/
def bn_clear : BIGNUM := List.replicate BN_SZ 0

/-- Loop of bn_shl: m += a[i] << 1; out[i] = m & BN_BASE_MAX; m >>= 16.
    The final carry (the bit shifted out of the top limb) is discarded. -/
def bn_shl_loop : List Nat → Nat → List Nat
  | [], _ => []
  | a :: as, m =>
    let m1 := m + a * 2
    m1 % 2 ^ BN_BASE_BITS :: bn_shl_loop as (m1 / 2 ^ BN_BASE_BITS)

/-- bn_shl from src/bn.c: shift left one bit; always BN_OK (overflow bit
    silently discarded).  Only the resulting limbs are modelled. -/
def bn_shl (a : BIGNUM) : BIGNUM := bn_shl_loop a 0

/-- bn_shr from src/bn.c.  The C loop runs from the most significant limb
    down with out[i] = m + (a[i] >> 1) and m = (a[i] & 1) << 15 carried from
    the limb above (m = 0 above the top limb); limb by limb this is
    out[i] = a[i]/2 + (a[i+1] mod 2) * 2^15, which is the little-endian
    recursion below. -/
def bn_shr : BIGNUM → BIGNUM
  | [] => []
  | x :: xs => (x / 2 + xs.headD 0 % 2 * 2 ^ (BN_BASE_BITS - 1)) :: bn_shr xs

/-- bn_get_bit from src/bn.c: returns (a[bit/16] & (1 << (bit%16))) ? 1 : 0. -/
def bn_get_bit (a : BIGNUM) (bit : Nat) : Nat :=
  if Nat.testBit (a.getD (bit / BN_BASE_BITS) 0) (bit % BN_BASE_BITS) then 1 else 0

/-- bn_set_bit from src/bn.c: a[bit/16] |= mask (val non-zero) or
    a[bit/16] &= ~mask (val zero); mask = 1 << (bit%16) as a 32-bit
    unsigned int, so ~mask is (2^32 - 1) XOR mask. -/
def bn_set_bit (a : BIGNUM) (bit val : Nat) : BIGNUM :=
  let nelem := bit / BN_BASE_BITS
  let mask := 2 ^ (bit % BN_BASE_BITS)
  if val ≠ 0 then a.set nelem (a.getD nelem 0 ||| mask)
  else a.set nelem (a.getD nelem 0 &&& ((2 ^ 32 - 1) ^^^ mask))

/-- bn_iszero from src/bn.c: true iff every limb is zero. -/
def bn_iszero (a : BIGNUM) : Bool := a.all fun x => x == 0

/-- Loop of bn_cmp on most-significant-first limb lists: the first differing
    limb decides. -/
def bn_cmp_loop : List Nat → List Nat → Int
  | a :: as, b :: bs =>
    if a < b then -1 else if b < a then 1 else bn_cmp_loop as bs
  | _, _ => 0

/-- bn_cmp from src/bn.c: compare limbs from most significant (index BN_SZ-1)
    down to least significant. -/
def bn_cmp (a b : BIGNUM) : Int := bn_cmp_loop a.reverse b.reverse

/-- Loop of bn_mul: while !bn_iszero(a_l) { if bit0(a_l) out += b_l
    (propagating a BN_E_OVERFLOW from bn_add); a_l >>= 1; b_l <<= 1 }.
    The fuel bounds the iterations; BN_BITS+1 suffices for any well-formed
    a_l since bn_shr halves its value. -/
def bn_mul_loop : Nat → BIGNUM → BIGNUM → BIGNUM → BN_ERR × BIGNUM
  | 0, _, _, out => (BN_ERR.BN_OK, out)
  | fuel + 1, a_l, b_l, out =>
    if bn_iszero a_l then (BN_ERR.BN_OK, out)
    else if bn_get_bit a_l 0 = 1 then
      let r := bn_add out b_l
      if r.1 = BN_ERR.BN_OK then bn_mul_loop fuel (bn_shr a_l) (bn_shl b_l) r.2
      else (r.1, r.2)
    else bn_mul_loop fuel (bn_shr a_l) (bn_shl b_l) out

/-- bn_mul from src/bn.c: shift-and-add; out starts cleared. -/
def bn_mul (a b : BIGNUM) : BN_ERR × BIGNUM :=
  bn_mul_loop (BN_BITS + 1) (bn_copy a) (bn_copy b) bn_clear

/-- Loop of bn_div, i = BN_BITS-1 down to 0 (counter k = i+1): shift the
    running remainder left, set its LSB to bit i of the numerator, and if it
    is >= the divisor subtract the divisor and set bit i of the quotient
    (when the quotient buffer is present). -/
def bn_div_loop (n d : BIGNUM) : Nat → BIGNUM → Option BIGNUM → BIGNUM × Option BIGNUM
  | 0, r_l, q => (r_l, q)
  | k + 1, r_l, q =>
    let r1 := bn_set_bit (bn_shl r_l) 0 (bn_get_bit n k)
    if 0 ≤ bn_cmp r1 d then
      bn_div_loop n d k (bn_sub r1 d).2 (q.map fun v => bn_set_bit v k 1)
    else
      bn_div_loop n d k r1 q

/-- bn_div from src/bn.c: binary long division.  The q and r pointers may be
    NULL, modelled by the wantq/wantr flags; an output of `none` means the
    corresponding caller buffer was never written.  A zero divisor is
    rejected before anything is written. -/
def bn_div (n d : BIGNUM) (wantq wantr : Bool) : BN_ERR × Option BIGNUM × Option BIGNUM :=
  if bn_iszero d then (BN_ERR.BN_E_DIVIDE_BY_ZERO, none, none)
  else
    let q0 : Option BIGNUM := if wantq then some bn_clear else none
    let res := bn_div_loop n d BN_BITS bn_clear q0
    (BN_ERR.BN_OK, res.2, if wantr then some res.1 else none)

/-- Loop of bn_load_int: while (x > 0) { out[pos++] = x & BN_BASE_MAX;
    x >>= 16; if (pos >= BN_SZ) return BN_E_OVERFLOW; }.  Note the C code
    returns BN_E_OVERFLOW as soon as pos reaches BN_SZ, even when x has just
    become zero.  Fuel BN_SZ+1 dominates the iteration count (pos grows by
    one per iteration and the loop stops at BN_SZ). -/
def bn_load_int_loop : Nat → Nat → Nat → List Nat → BN_ERR × BIGNUM
  | _, 0, _, out => (BN_ERR.BN_OK, out)
  | 0, _, _, out => (BN_ERR.BN_OK, out)
  | fuel + 1, x, pos, out =>
    let out1 := out.set pos (x % 2 ^ BN_BASE_BITS)
    if pos + 1 ≥ BN_SZ then (BN_ERR.BN_E_OVERFLOW, out1)
    else bn_load_int_loop fuel (x / 2 ^ BN_BASE_BITS) (pos + 1) out1

/-- bn_load_int from src/bn.c: decompose a native integer into limbs,
    least significant first, after clearing the output. -/
def bn_load_int (i : Nat) : BN_ERR × BIGNUM :=
  bn_load_int_loop (BN_SZ + 1) i 0 bn_clear

/-- Loop of bn_powmod: while !bn_iszero(exponent_l) { if bit0(exponent_l)
    { tmp = result*base_l; result = tmp mod modulus }; exponent_l >>= 1;
    tmp = base_l*base_l; base_l = tmp mod modulus }, propagating the first
    failure of bn_mul or bn_div immediately (result keeps whatever was last
    written to it).  bn_div is called with q = NULL, r = the target, so on
    its success the remainder is `some`; `Option.getD` only totalizes the
    match.  Fuel BN_BITS+1 dominates the iterations for well-formed
    exponents. -/
def bn_powmod_loop : Nat → BIGNUM → BIGNUM → BIGNUM → BIGNUM → BN_ERR × BIGNUM
  | 0, _, result, _, _ => (BN_ERR.BN_OK, result)
  | fuel + 1, modulus, result, base_l, exponent_l =>
    if bn_iszero exponent_l then (BN_ERR.BN_OK, result)
    else
      let step :=
        if bn_get_bit exponent_l 0 = 1 then
          let p := bn_mul result base_l
          if p.1 ≠ BN_ERR.BN_OK then (p.1, result)
          else
            let dv := bn_div p.2 modulus false true
            if dv.1 ≠ BN_ERR.BN_OK then (dv.1, result)
            else (BN_ERR.BN_OK, dv.2.2.getD result)
        else (BN_ERR.BN_OK, result)
      if step.1 ≠ BN_ERR.BN_OK then step
      else
        let exponent1 := bn_shr exponent_l
        let p2 := bn_mul base_l base_l
        if p2.1 ≠ BN_ERR.BN_OK then (p2.1, step.2)
        else
          let dv2 := bn_div p2.2 modulus false true
          if dv2.1 ≠ BN_ERR.BN_OK then (dv2.1, step.2)
          else bn_powmod_loop fuel modulus step.2 (dv2.2.2.getD base_l) exponent1

/-- bn_powmod from src/bn.c: result is first set to 1 via bn_load_int (this
    write to the caller's buffer happens before anything is checked), then
    square-and-multiply. -/
def bn_powmod (base exponent modulus : BIGNUM) : BN_ERR × BIGNUM :=
  let r0 := bn_load_int 1
  if r0.1 ≠ BN_ERR.BN_OK then (r0.1, r0.2)
  else bn_powmod_loop (BN_BITS + 1) modulus r0.2 (bn_copy base) (bn_copy exponent)

/-- Intermediate-products-fit predicate for bn_powmod, in lockstep with
    `bn_powmod_loop`: at every iteration the true product computed by each
    bn_mul call (result*base_l when the exponent bit is set, and always
    base_l*base_l) is below 2^BN_BITS.  This formalizes the spec's
    "intermediate products fit the width" hypothesis. -/
def bn_powmod_fits_loop : Nat → BIGNUM → BIGNUM → BIGNUM → BIGNUM → Bool
  | 0, _, _, _, _ => true
  | fuel + 1, modulus, result, base_l, exponent_l =>
    if bn_iszero exponent_l then true
    else
      (if bn_get_bit exponent_l 0 = 1 then
          decide (bnval result * bnval base_l < 2 ^ BN_BITS) else true) &&
      decide (bnval base_l * bnval base_l < 2 ^ BN_BITS) &&
      (let result1 :=
          if bn_get_bit exponent_l 0 = 1 then
            ((bn_div (bn_mul result base_l).2 modulus false true).2.2).getD result
          else result
       let base1 := ((bn_div (bn_mul base_l base_l).2 modulus false true).2.2).getD base_l
       bn_powmod_fits_loop fuel modulus result1 base1 (bn_shr exponent_l))

/-- Top-level fit predicate matching `bn_powmod`'s initial state. -/
def bn_powmod_fits (base exponent modulus : BIGNUM) : Bool :=
  bn_powmod_fits_loop (BN_BITS + 1) modulus (bn_load_int 1).2 (bn_copy base) (bn_copy exponent)

/-! ### Basic value lemmas -/

theorem bnval_lt_pow (a : List Nat) (h : ∀ x ∈ a, x < 2 ^ BN_BASE_BITS) :
    bnval a < (2 ^ BN_BASE_BITS) ^ a.length := by
  induction a with
  | nil => simp [bnval]
  | cons x xs ih =>
    have hx : x < 2 ^ BN_BASE_BITS := h x (by simp)
    have hxs := ih fun y hy => h y (by simp [hy])
    have hB : (2:Nat) ^ BN_BASE_BITS = 65536 := by norm_num [BN_BASE_BITS]
    simp only [bnval, List.length_cons, pow_succ]
    rw [hB] at hx hxs ⊢
    have h1 : 65536 * (bnval xs + 1) ≤ 65536 * 65536 ^ xs.length :=
      Nat.mul_le_mul_left _ hxs
    have h2 : (65536:Nat) ^ xs.length * 65536 = 65536 * 65536 ^ xs.length := Nat.mul_comm _ _
    have h3 : 65536 * (bnval xs + 1) = 65536 * bnval xs + 65536 := by ring
    omega

theorem bnval_wf_lt (a : BIGNUM) (h : bn_wf a) : bnval a < 2 ^ BN_BITS := by
  have h2 := bnval_lt_pow a h.2
  rw [h.1] at h2
  simpa [BN_BASE_BITS, BN_SZ, BN_BITS] using h2

theorem bnval_eq_zero_iff (a : List Nat) : bnval a = 0 ↔ ∀ x ∈ a, x = 0 := by
  induction a with
  | nil => simp [bnval]
  | cons x xs ih =>
    simp only [bnval, List.mem_cons]
    have hB : (0:Nat) < 2 ^ BN_BASE_BITS := by positivity
    constructor
    · intro h
      have hxs : 2 ^ BN_BASE_BITS * bnval xs = 0 := by omega
      have hv : bnval xs = 0 := by
        rcases Nat.mul_eq_zero.mp hxs with h1 | h2
        · omega
        · exact h2
      intro y hy
      rcases hy with rfl | hy
      · omega
      · exact (ih.mp hv) y hy
    · intro h
      have hx : x = 0 := h x (Or.inl rfl)
      have hv : bnval xs = 0 := ih.mpr fun y hy => h y (Or.inr hy)
      simp [hx, hv]

/-! ### bn_add -/

theorem bn_add_loop_spec (a : List Nat) : ∀ (b : List Nat) (c : Nat),
    a.length = b.length → (∀ x ∈ a, x < 2 ^ BN_BASE_BITS) →
    (∀ x ∈ b, x < 2 ^ BN_BASE_BITS) → c ≤ 1 →
    bnval (bn_add_loop a b c).1 + (bn_add_loop a b c).2 * (2 ^ BN_BASE_BITS) ^ a.length
        = bnval a + bnval b + c
    ∧ (bn_add_loop a b c).2 ≤ 1
    ∧ (bn_add_loop a b c).1.length = a.length
    ∧ ∀ x ∈ (bn_add_loop a b c).1, x < 2 ^ BN_BASE_BITS := by
  induction a with
  | nil =>
    intro b c hlen _ _ hc
    have hb : b = [] := by
      cases b
      · rfl
      · simp at hlen
    subst hb
    refine ⟨by simp [bn_add_loop, bnval], by simpa [bn_add_loop] using hc,
      by simp [bn_add_loop], by simp [bn_add_loop]⟩
  | cons x xs ih =>
    intro b c hlen ha hb hc
    cases b with
    | nil => simp at hlen
    | cons y ys =>
      have hx : x < 2 ^ BN_BASE_BITS := ha x (by simp)
      have hy : y < 2 ^ BN_BASE_BITS := hb y (by simp)
      have hlen' : xs.length = ys.length := by simpa using hlen
      have hB : (2:Nat) ^ BN_BASE_BITS = 65536 := by norm_num [BN_BASE_BITS]
      have hc' : (c + (x + y)) / 2 ^ BN_BASE_BITS ≤ 1 := by
        rw [hB] at hx hy ⊢
        omega
      obtain ⟨ih1, ih2, ih3, ih4⟩ :=
        ih ys ((c + (x + y)) / 2 ^ BN_BASE_BITS) hlen'
          (fun z hz => ha z (by simp [hz])) (fun z hz => hb z (by simp [hz])) hc'
      refine ⟨?_, ?_, ?_, ?_⟩
      · simp only [bn_add_loop, bnval, List.length_cons, pow_succ]
        have hdm := Nat.div_add_mod (c + (x + y)) (2 ^ BN_BASE_BITS)
        rcases (by omega : (bn_add_loop xs ys ((c + (x + y)) / 2 ^ BN_BASE_BITS)).2 = 0
            ∨ (bn_add_loop xs ys ((c + (x + y)) / 2 ^ BN_BASE_BITS)).2 = 1) with h0 | h1
        · rw [h0] at ih1 ⊢
          rw [hB] at ih1 hdm ⊢
          omega
        · rw [h1] at ih1 ⊢
          rw [hB] at ih1 hdm ⊢
          have hKK : (65536:Nat) ^ xs.length * 65536 = 65536 * 65536 ^ xs.length :=
            Nat.mul_comm _ _
          omega
      · simpa [bn_add_loop] using ih2
      · simpa [bn_add_loop] using ih3
      · intro z hz
        simp only [bn_add_loop, List.mem_cons] at hz
        rcases hz with rfl | hz
        · exact Nat.mod_lt _ (by positivity)
        · exact ih4 z hz

theorem bn_add_spec (a b : BIGNUM) (ha : bn_wf a) (hb : bn_wf b) :
    ((bn_add a b).1 = BN_ERR.BN_E_OVERFLOW ↔ 2 ^ BN_BITS ≤ bnval a + bnval b)
    ∧ ((bn_add a b).1 = BN_ERR.BN_OK ↔ bnval a + bnval b < 2 ^ BN_BITS)
    ∧ bnval (bn_add a b).2 = (bnval a + bnval b) % 2 ^ BN_BITS
    ∧ bn_wf (bn_add a b).2 := by
  obtain ⟨ih1, ih2, ih3, ih4⟩ := bn_add_loop_spec a b 0 (ha.1.trans hb.1.symm) ha.2 hb.2 (by omega)
  have hpow : ((2:Nat) ^ BN_BASE_BITS) ^ BN_SZ = 2 ^ BN_BITS := by
    norm_num [BN_BASE_BITS, BN_SZ, BN_BITS]
  rw [ha.1, hpow] at ih1
  have hlt : bnval (bn_add_loop a b 0).1 < 2 ^ BN_BITS := by
    have h2 := bnval_lt_pow (bn_add_loop a b 0).1 ih4
    rw [ih3, ha.1, hpow] at h2
    exact h2
  have hsnd : (bn_add a b).2 = (bn_add_loop a b 0).1 := rfl
  have hfst : (bn_add a b).1
      = (if (bn_add_loop a b 0).2 ≠ 0 then BN_ERR.BN_E_OVERFLOW else BN_ERR.BN_OK) := rfl
  have h64 : (2:Nat) ^ BN_BITS = 18446744073709551616 := by norm_num [BN_BITS]
  rcases (by omega : (bn_add_loop a b 0).2 = 0 ∨ (bn_add_loop a b 0).2 = 1) with h0 | h1
  · rw [h0] at ih1
    have herr : (bn_add a b).1 = BN_ERR.BN_OK := by rw [hfst, h0]; simp
    refine ⟨?_, ?_, ?_, ?_⟩
    · rw [herr]
      constructor
      · intro h
        exact absurd h (by decide)
      · intro h
        exact absurd h (by omega)
    · rw [herr]
      exact ⟨fun _ => by omega, fun _ => rfl⟩
    · rw [hsnd]
      rw [h64] at ih1 hlt ⊢
      omega
    · rw [hsnd]
      exact ⟨ih3.trans ha.1, ih4⟩
  · rw [h1] at ih1
    have herr : (bn_add a b).1 = BN_ERR.BN_E_OVERFLOW := by rw [hfst, h1]; simp
    refine ⟨?_, ?_, ?_, ?_⟩
    · rw [herr]
      exact ⟨fun _ => by omega, fun _ => rfl⟩
    · rw [herr]
      constructor
      · intro h
        exact absurd h (by decide)
      · intro h
        exact absurd h (by omega)
    · rw [hsnd]
      rw [h64] at ih1 hlt ⊢
      omega
    · rw [hsnd]
      exact ⟨ih3.trans ha.1, ih4⟩

/-! ### bn_sub -/

theorem bn_sub_loop_spec (a : List Nat) : ∀ (b : List Nat) (m : Int),
    a.length = b.length → (∀ x ∈ a, x < 2 ^ BN_BASE_BITS) →
    (∀ x ∈ b, x < 2 ^ BN_BASE_BITS) → (m = 0 ∨ m = -1) →
    (bnval (bn_sub_loop a b m).1 : Int)
        = (bnval a : Int) - (bnval b : Int) + m
          - (bn_sub_loop a b m).2 * (65536 : Int) ^ a.length
    ∧ ((bn_sub_loop a b m).2 = 0 ∨ (bn_sub_loop a b m).2 = -1)
    ∧ (bn_sub_loop a b m).1.length = a.length
    ∧ ∀ x ∈ (bn_sub_loop a b m).1, x < 2 ^ BN_BASE_BITS := by
  induction a with
  | nil =>
    intro b m hlen _ _ hm
    have hb : b = [] := by
      cases b
      · rfl
      · simp at hlen
    subst hb
    refine ⟨by simp [bn_sub_loop, bnval], by simpa [bn_sub_loop] using hm,
      by simp [bn_sub_loop], by simp [bn_sub_loop]⟩
  | cons x xs ih =>
    intro b m hlen ha hb hm
    cases b with
    | nil => simp at hlen
    | cons y ys =>
      have hx : x < 2 ^ BN_BASE_BITS := ha x (by simp)
      have hy : y < 2 ^ BN_BASE_BITS := hb y (by simp)
      have hlen' : xs.length = ys.length := by simpa using hlen
      have hB : (((2 : Nat) ^ BN_BASE_BITS : Nat) : Int) = 65536 := by
        norm_num [BN_BASE_BITS]
      have hBn : (2 : Nat) ^ BN_BASE_BITS = 65536 := by norm_num [BN_BASE_BITS]
      rw [hBn] at hx hy
      have hm1b : -65536 ≤ (x : Int) - (y : Int) + m ∧ (x : Int) - (y : Int) + m ≤ 65535 := by
        omega
      have hm' : ((x : Int) - (y : Int) + m) / ((2 ^ BN_BASE_BITS : Nat) : Int) = 0
          ∨ ((x : Int) - (y : Int) + m) / ((2 ^ BN_BASE_BITS : Nat) : Int) = -1 := by
        rw [hB]
        omega
      obtain ⟨ih1, ih2, ih3, ih4⟩ :=
        ih ys (((x : Int) - (y : Int) + m) / ((2 ^ BN_BASE_BITS : Nat) : Int)) hlen'
          (fun z hz => ha z (by simp [hz])) (fun z hz => hb z (by simp [hz])) hm'
      refine ⟨?_, ?_, ?_, ?_⟩
      · have hBi : (2:Int) ^ BN_BASE_BITS = 65536 := by norm_num [BN_BASE_BITS]
        have hnn : 0 ≤ ((x : Int) - (y : Int) + m) % ((2 ^ BN_BASE_BITS : Nat) : Int) :=
          Int.emod_nonneg _ (by rw [hB]; norm_num)
        simp only [bn_sub_loop, bnval, List.length_cons, pow_succ]
        push_cast
        push_cast at hnn ih1 ih2
        rw [hBi] at hnn ih1 ih2 ⊢
        rw [Int.toNat_of_nonneg hnn, ih1]
        have hdm := Int.ediv_add_emod ((x : Int) - (y : Int) + m) 65536
        rcases ih2 with h0 | h1
        · rw [h0]
          ring_nf
          omega
        · rw [h1]
          ring_nf
          omega
      · simpa [bn_sub_loop] using ih2
      · simpa [bn_sub_loop] using ih3
      · intro z hz
        simp only [bn_sub_loop, List.mem_cons] at hz
        rcases hz with rfl | hz
        · have hnn : 0 ≤ ((x : Int) - (y : Int) + m) % ((2 ^ BN_BASE_BITS : Nat) : Int) :=
            Int.emod_nonneg _ (by rw [hB]; norm_num)
          have hub : ((x : Int) - (y : Int) + m) % ((2 ^ BN_BASE_BITS : Nat) : Int) < 65536 := by
            have := Int.emod_lt_of_pos ((x : Int) - (y : Int) + m)
              (show (0:Int) < ((2 ^ BN_BASE_BITS : Nat) : Int) by rw [hB]; norm_num)
            rw [hB] at this
            exact this
          rw [hBn]
          omega
        · exact ih4 z hz

theorem bn_sub_spec (a b : BIGNUM) (ha : bn_wf a) (hb : bn_wf b) :
    (bn_sub a b).1 = BN_ERR.BN_OK
    ∧ bnval (bn_sub a b).2 = (2 ^ BN_BITS + bnval a - bnval b) % 2 ^ BN_BITS
    ∧ bn_wf (bn_sub a b).2 := by
  obtain ⟨ih1, ih2, ih3, ih4⟩ :=
    bn_sub_loop_spec a b 0 (ha.1.trans hb.1.symm) ha.2 hb.2 (Or.inl rfl)
  have hsnd : (bn_sub a b).2 = (bn_sub_loop a b 0).1 := rfl
  have hpow : ((65536:Int)) ^ a.length = 18446744073709551616 := by
    rw [ha.1]
    norm_num [BN_SZ, BN_BITS]
  have h64 : (2:Nat) ^ BN_BITS = 18446744073709551616 := by norm_num [BN_BITS]
  have hva : bnval a < 2 ^ BN_BITS := bnval_wf_lt a ha
  have hvb : bnval b < 2 ^ BN_BITS := bnval_wf_lt b hb
  have hlt : bnval (bn_sub_loop a b 0).1 < 2 ^ BN_BITS := by
    have h2 := bnval_lt_pow (bn_sub_loop a b 0).1 ih4
    rw [ih3, ha.1] at h2
    simpa [BN_BASE_BITS, BN_SZ, BN_BITS] using h2
  rw [hpow] at ih1
  refine ⟨rfl, ?_, ?_⟩
  · rw [hsnd, h64]
    rw [h64] at hva hvb hlt
    rcases ih2 with h0 | h1
    · rw [h0] at ih1
      omega
    · rw [h1] at ih1
      omega
  · rw [hsnd]
    exact ⟨ih3.trans ha.1, ih4⟩

theorem bn_sub_exact (a b : BIGNUM) (ha : bn_wf a) (hb : bn_wf b)
    (hle : bnval b ≤ bnval a) : bnval (bn_sub a b).2 = bnval a - bnval b := by
  obtain ⟨-, h2, -⟩ := bn_sub_spec a b ha hb
  have hva : bnval a < 2 ^ BN_BITS := bnval_wf_lt a ha
  have h64 : (2:Nat) ^ BN_BITS = 18446744073709551616 := by norm_num [BN_BITS]
  rw [h64] at h2 hva
  omega

/-! ### bn_shl and bn_shr -/

theorem add_mul_mod_helper (r K B M : Nat) (hr : r < B) (hM : 0 < M) :
    (r + B * K) % (B * M) = r + B * (K % M) := by
  have h1 : (B * K) % (B * M) = B * (K % M) := Nat.mul_mod_mul_left B K M
  have hlt : r + B * (K % M) < B * M := by
    have hKM : K % M < M := Nat.mod_lt _ hM
    have h2 : B * (K % M) + B ≤ B * M := by
      have h3 := Nat.mul_le_mul_left B (Nat.succ_le_of_lt hKM)
      rw [Nat.mul_succ] at h3
      exact h3
    omega
  calc (r + B * K) % (B * M)
      = (r % (B * M) + (B * K) % (B * M)) % (B * M) := by rw [Nat.add_mod]
    _ = (r % (B * M) + B * (K % M)) % (B * M) := by rw [h1]
    _ = (r + B * (K % M)) % (B * M) := by
        rw [Nat.mod_eq_of_lt (lt_of_lt_of_le hr (Nat.le_mul_of_pos_right B hM))]
    _ = r + B * (K % M) := Nat.mod_eq_of_lt hlt

theorem bn_shl_loop_spec (a : List Nat) : ∀ (c : Nat),
    (∀ x ∈ a, x < 2 ^ BN_BASE_BITS) → c ≤ 1 →
    bnval (bn_shl_loop a c) = (2 * bnval a + c) % (2 ^ BN_BASE_BITS) ^ a.length
    ∧ (bn_shl_loop a c).length = a.length
    ∧ ∀ x ∈ bn_shl_loop a c, x < 2 ^ BN_BASE_BITS := by
  induction a with
  | nil =>
    intro c _ hc
    refine ⟨?_, by simp [bn_shl_loop], by simp [bn_shl_loop]⟩
    simp only [bn_shl_loop, bnval, List.length_cons, List.length_nil, pow_zero]
    omega
  | cons x xs ih =>
    intro c ha hc
    have hx : x < 2 ^ BN_BASE_BITS := ha x (by simp)
    have hB : (2:Nat) ^ BN_BASE_BITS = 65536 := by norm_num [BN_BASE_BITS]
    have hc' : (c + x * 2) / 2 ^ BN_BASE_BITS ≤ 1 := by
      rw [hB]
      rw [hB] at hx
      omega
    obtain ⟨ih1, ih2, ih3⟩ := ih ((c + x * 2) / 2 ^ BN_BASE_BITS)
      (fun z hz => ha z (by simp [hz])) hc'
    refine ⟨?_, by simpa [bn_shl_loop] using ih2, ?_⟩
    · simp only [bn_shl_loop, bnval, List.length_cons, pow_succ]
      rw [ih1]
      have hmod : (c + x * 2) % 2 ^ BN_BASE_BITS < 2 ^ BN_BASE_BITS :=
        Nat.mod_lt _ (by positivity)
      have hpos : 0 < ((2:Nat) ^ BN_BASE_BITS) ^ xs.length := by positivity
      have hcomm : ((2:Nat) ^ BN_BASE_BITS) ^ xs.length * 2 ^ BN_BASE_BITS
          = 2 ^ BN_BASE_BITS * ((2:Nat) ^ BN_BASE_BITS) ^ xs.length := Nat.mul_comm _ _
      rw [hcomm, ← add_mul_mod_helper ((c + x * 2) % 2 ^ BN_BASE_BITS)
        (2 * bnval xs + (c + x * 2) / 2 ^ BN_BASE_BITS) _ _ hmod hpos]
      have hdm := Nat.div_add_mod (c + x * 2) (2 ^ BN_BASE_BITS)
      congr 1
      rw [hB]
      rw [hB] at hdm
      ring_nf
      ring_nf at hdm
      omega
    · intro z hz
      simp only [bn_shl_loop, List.mem_cons] at hz
      rcases hz with rfl | hz
      · exact Nat.mod_lt _ (by positivity)
      · exact ih3 z hz

theorem bn_shl_spec (a : BIGNUM) (ha : bn_wf a) :
    bnval (bn_shl a) = 2 * bnval a % 2 ^ BN_BITS ∧ bn_wf (bn_shl a) := by
  obtain ⟨h1, h2, h3⟩ := bn_shl_loop_spec a 0 ha.2 (by omega)
  have hpow : ((2:Nat) ^ BN_BASE_BITS) ^ a.length = 2 ^ BN_BITS := by
    rw [ha.1]
    norm_num [BN_BASE_BITS, BN_SZ, BN_BITS]
  refine ⟨?_, h2.trans ha.1, h3⟩
  rw [bn_shl, h1, hpow]
  simp

theorem bnval_mod_two (a : List Nat) : bnval a % 2 = a.headD 0 % 2 := by
  cases a with
  | nil => simp [bnval]
  | cons x xs =>
    simp only [bnval, List.headD]
    have hB : (2:Nat) ^ BN_BASE_BITS = 65536 := by norm_num [BN_BASE_BITS]
    rw [hB]
    omega

theorem bn_shr_spec (a : List Nat) (ha : ∀ x ∈ a, x < 2 ^ BN_BASE_BITS) :
    bnval (bn_shr a) = bnval a / 2
    ∧ (bn_shr a).length = a.length
    ∧ ∀ x ∈ bn_shr a, x < 2 ^ BN_BASE_BITS := by
  induction a with
  | nil => simp [bn_shr, bnval]
  | cons x xs ih =>
    have hx : x < 2 ^ BN_BASE_BITS := ha x (by simp)
    obtain ⟨ih1, ih2, ih3⟩ := ih fun z hz => ha z (by simp [hz])
    have hB : (2:Nat) ^ BN_BASE_BITS = 65536 := by norm_num [BN_BASE_BITS]
    have hB1 : (2:Nat) ^ (BN_BASE_BITS - 1) = 32768 := by norm_num [BN_BASE_BITS]
    have hhead := bnval_mod_two xs
    refine ⟨?_, by simpa [bn_shr] using ih2, ?_⟩
    · simp only [bn_shr, bnval]
      rw [ih1, hB, hB1]
      omega
    · intro z hz
      simp only [bn_shr, List.mem_cons] at hz
      rcases hz with rfl | hz
      · rw [hB]
        rw [hB] at hx
        have hd : xs.headD 0 % 2 ≤ 1 := by omega
        rw [hB1]
        omega
      · exact ih3 z hz

theorem bn_shr_wf (a : BIGNUM) (ha : bn_wf a) :
    bnval (bn_shr a) = bnval a / 2 ∧ bn_wf (bn_shr a) := by
  obtain ⟨h1, h2, h3⟩ := bn_shr_spec a ha.2
  exact ⟨h1, h2.trans ha.1, h3⟩

/-! ### Bit access -/

theorem bnval_testBit (a : List Nat) : ∀ (k : Nat), (∀ x ∈ a, x < 2 ^ BN_BASE_BITS) →
    (bnval a).testBit k = (a.getD (k / BN_BASE_BITS) 0).testBit (k % BN_BASE_BITS) := by
  induction a with
  | nil =>
    intro k _
    simp [bnval]
  | cons x xs ih =>
    intro k ha
    have hx : x < 2 ^ BN_BASE_BITS := ha x (by simp)
    have hval : bnval (x :: xs) = 2 ^ BN_BASE_BITS * bnval xs + x := by
      simp only [bnval]
      ring
    rw [hval, Nat.testBit_mul_pow_two_add (bnval xs) hx k]
    have hBB : BN_BASE_BITS = 16 := rfl
    rcases Nat.lt_or_ge k BN_BASE_BITS with hk | hk
    · rw [if_pos hk, Nat.div_eq_of_lt hk, Nat.mod_eq_of_lt hk]
      simp
    · rw [if_neg (by omega)]
      rw [ih (k - BN_BASE_BITS) (fun z hz => ha z (by simp [hz]))]
      have e1 : (k - BN_BASE_BITS) / BN_BASE_BITS = k / BN_BASE_BITS - 1 := by
        rw [hBB] at hk ⊢
        omega
      have e2 : (k - BN_BASE_BITS) % BN_BASE_BITS = k % BN_BASE_BITS := by
        rw [hBB] at hk ⊢
        omega
      have e3 : k / BN_BASE_BITS = (k / BN_BASE_BITS - 1) + 1 := by
        rw [hBB] at hk ⊢
        omega
      rw [e1, e2, e3, List.getD_cons_succ]
      simp

theorem bn_get_bit_spec (a : BIGNUM) (ha : ∀ x ∈ a, x < 2 ^ BN_BASE_BITS) (k : Nat) :
    bn_get_bit a k = if (bnval a).testBit k then 1 else 0 := by
  rw [bn_get_bit, bnval_testBit a k ha]

theorem bnval_set (a : List Nat) : ∀ (i v : Nat), i < a.length →
    bnval (a.set i v) + a.getD i 0 * (2 ^ BN_BASE_BITS) ^ i
      = bnval a + v * (2 ^ BN_BASE_BITS) ^ i := by
  induction a with
  | nil =>
    intro i v h
    simp at h
  | cons x xs ih =>
    intro i v h
    cases i with
    | zero =>
      simp only [List.set, bnval, List.getD_cons_zero, pow_zero]
      ring
    | succ n =>
      have hlt : n < xs.length := by simpa using h
      have key := ih n v hlt
      simp only [List.set, bnval, List.getD_cons_succ, pow_succ]
      calc x + 2 ^ BN_BASE_BITS * bnval (xs.set n v)
            + xs.getD n 0 * ((2 ^ BN_BASE_BITS) ^ n * 2 ^ BN_BASE_BITS)
          = x + 2 ^ BN_BASE_BITS * (bnval (xs.set n v) + xs.getD n 0 * (2 ^ BN_BASE_BITS) ^ n) := by
            ring
        _ = x + 2 ^ BN_BASE_BITS * (bnval xs + v * (2 ^ BN_BASE_BITS) ^ n) := by rw [key]
        _ = x + 2 ^ BN_BASE_BITS * bnval xs + v * ((2 ^ BN_BASE_BITS) ^ n * 2 ^ BN_BASE_BITS) := by
            ring

theorem lor_two_pow_aux (H L j : Nat) (hL : L < 2 ^ j) :
    (2 ^ j * (2 * H) + L) ||| 2 ^ j = 2 ^ j * (2 * H + 1) + L := by
  apply Nat.eq_of_testBit_eq
  intro i
  rw [Nat.testBit_or, Nat.testBit_mul_pow_two_add _ hL i, Nat.testBit_mul_pow_two_add _ hL i]
  rcases Nat.lt_trichotomy i j with hij | hij | hij
  · rw [if_pos hij, if_pos hij, Nat.testBit_two_pow_of_ne (by omega)]
    simp
  · subst hij
    rw [if_neg (by omega), if_neg (by omega), Nat.sub_self, Nat.testBit_two_pow_self]
    rw [Nat.testBit_zero, Nat.testBit_zero]
    simp
    omega
  · rw [if_neg (by omega), if_neg (by omega), Nat.testBit_two_pow_of_ne (by omega)]
    have hs : i - j = (i - j - 1) + 1 := by omega
    rw [hs, Nat.testBit_add_one, Nat.testBit_add_one]
    have h1 : 2 * H / 2 = H := by omega
    have h2 : (2 * H + 1) / 2 = H := by omega
    rw [h1, h2]
    simp

theorem lor_two_pow_of_testBit_false (x j : Nat) (h : x.testBit j = false) :
    x ||| 2 ^ j = x + 2 ^ j := by
  have hdm := Nat.div_add_mod x (2 ^ (j + 1))
  have hLmod : (x % 2 ^ (j + 1)).testBit j = false := by
    rw [Nat.testBit_mod_two_pow]
    simp [h]
  have hLlt : x % 2 ^ (j + 1) < 2 ^ j := by
    have hlt1 : x % 2 ^ (j + 1) < 2 ^ (j + 1) := Nat.mod_lt _ (by positivity)
    by_contra hge
    push_neg at hge
    rcases Nat.ge_two_pow_implies_high_bit_true hge with ⟨i, hji, hbit⟩
    rcases Nat.lt_or_ge i (j + 1) with hi | hi
    · have hij : i = j := by omega
      rw [hij, hLmod] at hbit
      exact Bool.false_ne_true hbit
    · have hz : (x % 2 ^ (j + 1)).testBit i = false :=
        Nat.testBit_lt_two_pow (lt_of_lt_of_le hlt1 (Nat.pow_le_pow_right (by norm_num) hi))
      rw [hz] at hbit
      exact Bool.false_ne_true hbit
  have hx2 : x = 2 ^ j * (2 * (x / 2 ^ (j + 1))) + x % 2 ^ (j + 1) := by
    calc x = 2 ^ (j + 1) * (x / 2 ^ (j + 1)) + x % 2 ^ (j + 1) := hdm.symm
      _ = 2 ^ j * (2 * (x / 2 ^ (j + 1))) + x % 2 ^ (j + 1) := by rw [pow_succ]; ring
  calc x ||| 2 ^ j
      = (2 ^ j * (2 * (x / 2 ^ (j + 1))) + x % 2 ^ (j + 1)) ||| 2 ^ j := by rw [← hx2]
    _ = 2 ^ j * (2 * (x / 2 ^ (j + 1)) + 1) + x % 2 ^ (j + 1) := lor_two_pow_aux _ _ _ hLlt
    _ = (2 ^ j * (2 * (x / 2 ^ (j + 1))) + x % 2 ^ (j + 1)) + 2 ^ j := by ring
    _ = x + 2 ^ j := by rw [← hx2]

theorem bn_set_bit_one_spec (a : BIGNUM) (ha : ∀ x ∈ a, x < 2 ^ BN_BASE_BITS)
    (bit : Nat) (hbit : bit < BN_BASE_BITS * a.length)
    (hfalse : (bnval a).testBit bit = false) :
    bnval (bn_set_bit a bit 1) = bnval a + 2 ^ bit
    ∧ (bn_set_bit a bit 1).length = a.length
    ∧ ∀ x ∈ bn_set_bit a bit 1, x < 2 ^ BN_BASE_BITS := by
  have hBB : BN_BASE_BITS = 16 := rfl
  have hnelem : bit / BN_BASE_BITS < a.length := by
    rw [hBB] at hbit ⊢
    omega
  have hj : bit % BN_BASE_BITS < BN_BASE_BITS := Nat.mod_lt _ (by rw [hBB]; omega)
  have hlimb : a.getD (bit / BN_BASE_BITS) 0 < 2 ^ BN_BASE_BITS := by
    rw [List.getD_eq_getElem a 0 hnelem]
    exact ha _ (List.getElem_mem hnelem)
  have hlbit : (a.getD (bit / BN_BASE_BITS) 0).testBit (bit % BN_BASE_BITS) = false := by
    rw [← bnval_testBit a bit ha]
    exact hfalse
  have hor : a.getD (bit / BN_BASE_BITS) 0 ||| 2 ^ (bit % BN_BASE_BITS)
      = a.getD (bit / BN_BASE_BITS) 0 + 2 ^ (bit % BN_BASE_BITS) :=
    lor_two_pow_of_testBit_false _ _ hlbit
  have horlt : a.getD (bit / BN_BASE_BITS) 0 ||| 2 ^ (bit % BN_BASE_BITS) < 2 ^ BN_BASE_BITS :=
    Nat.or_lt_two_pow hlimb (Nat.pow_lt_pow_right (by norm_num) hj)
  have hunfold : bn_set_bit a bit 1
      = a.set (bit / BN_BASE_BITS) (a.getD (bit / BN_BASE_BITS) 0 ||| 2 ^ (bit % BN_BASE_BITS)) := by
    rw [bn_set_bit]
    simp
  refine ⟨?_, ?_, ?_⟩
  · rw [hunfold]
    have key := bnval_set a (bit / BN_BASE_BITS)
      (a.getD (bit / BN_BASE_BITS) 0 ||| 2 ^ (bit % BN_BASE_BITS)) hnelem
    have hpowsplit : 2 ^ (bit % BN_BASE_BITS) * (2 ^ BN_BASE_BITS) ^ (bit / BN_BASE_BITS)
        = 2 ^ bit := by
      rw [← Nat.pow_mul, ← Nat.pow_add]
      congr 1
      rw [hBB]
      omega
    generalize hS : bnval (a.set (bit / BN_BASE_BITS)
      (a.getD (bit / BN_BASE_BITS) 0 ||| 2 ^ (bit % BN_BASE_BITS))) = S at key ⊢
    rw [hor, Nat.add_mul, hpowsplit] at key
    omega
  · rw [hunfold, List.length_set]
  · rw [hunfold]
    intro z hz
    rcases List.mem_or_eq_of_mem_set hz with hmem | rfl
    · exact ha z hmem
    · exact horlt

theorem bn_set_bit_zero0 (a : BIGNUM) (ha : ∀ x ∈ a, x < 2 ^ BN_BASE_BITS)
    (hlen : 0 < a.length) (heven : bnval a % 2 = 0) :
    bn_set_bit a 0 0 = a := by
  have hBB : BN_BASE_BITS = 16 := rfl
  have hlimb : a.getD 0 0 < 2 ^ BN_BASE_BITS := by
    rw [List.getD_eq_getElem a 0 hlen]
    exact ha _ (List.getElem_mem hlen)
  have hlimb_even : a.getD 0 0 % 2 = 0 := by
    have hh := bnval_mod_two a
    cases a with
    | nil => simp at hlen
    | cons x xs =>
      simp only [List.getD_cons_zero]
      simp only [List.headD] at hh
      omega
  have hand : a.getD 0 0 &&& ((2 ^ 32 - 1) ^^^ 2 ^ (0 % BN_BASE_BITS)) = a.getD 0 0 := by
    apply Nat.eq_of_testBit_eq
    intro i
    rw [Nat.testBit_and, Nat.testBit_xor, Nat.testBit_two_pow_sub_one]
    have h0mod : (0 : Nat) % BN_BASE_BITS = 0 := by rw [hBB]
    rw [h0mod, pow_zero]
    rcases Nat.eq_zero_or_pos i with rfl | hi
    · have h00 : (a.getD 0 0).testBit 0 = false := by
        rw [Nat.testBit_zero]
        simp only [decide_eq_false_iff_not]
        omega
      rw [h00]
      simp
    · rcases Nat.lt_or_ge i 32 with hi32 | hi32
      · have h1t : Nat.testBit 1 i = false := by
          have h1e : (1:Nat) = 2 ^ 0 := rfl
          rw [h1e]
          exact Nat.testBit_two_pow_of_ne (by omega)
        rw [h1t]
        simp [hi32]
      · have hz : (a.getD 0 0).testBit i = false :=
          Nat.testBit_lt_two_pow (lt_of_lt_of_le hlimb
            (by
              rw [hBB]
              exact Nat.pow_le_pow_right (by norm_num) (by omega)))
        have h1t : Nat.testBit 1 i = false := by
          have h1e : (1:Nat) = 2 ^ 0 := rfl
          rw [h1e]
          exact Nat.testBit_two_pow_of_ne (by omega)
        rw [hz, h1t]
        simp [show ¬ i < 32 by omega]
  have hdiv0 : (0 : Nat) / BN_BASE_BITS = 0 := by rw [hBB]
  calc bn_set_bit a 0 0
      = a.set (0 / BN_BASE_BITS) (a.getD (0 / BN_BASE_BITS) 0
          &&& ((2 ^ 32 - 1) ^^^ 2 ^ (0 % BN_BASE_BITS))) := by
        rw [bn_set_bit]
        simp
    _ = a.set 0 (a.getD 0 0) := by rw [hdiv0, hand]
    _ = a := by
        cases a with
        | nil => simp at hlen
        | cons x xs => simp

theorem bn_set_bit0_spec (a : BIGNUM) (ha : ∀ x ∈ a, x < 2 ^ BN_BASE_BITS)
    (hlen : 0 < a.length) (heven : bnval a % 2 = 0) (v : Nat) (hv : v ≤ 1) :
    bnval (bn_set_bit a 0 v) = bnval a + v
    ∧ (bn_set_bit a 0 v).length = a.length
    ∧ ∀ x ∈ bn_set_bit a 0 v, x < 2 ^ BN_BASE_BITS := by
  rcases (by omega : v = 0 ∨ v = 1) with rfl | rfl
  · rw [bn_set_bit_zero0 a ha hlen heven]
    exact ⟨by omega, rfl, ha⟩
  · have hfalse : (bnval a).testBit 0 = false := by
      rw [Nat.testBit_zero]
      simp only [decide_eq_false_iff_not]
      omega
    have hbit : 0 < BN_BASE_BITS * a.length := by
      have hBB : BN_BASE_BITS = 16 := rfl
      rw [hBB]
      omega
    obtain ⟨h1, h2, h3⟩ := bn_set_bit_one_spec a ha 0 hbit hfalse
    refine ⟨?_, h2, h3⟩
    rw [h1]
    norm_num

/-! ### bn_iszero -/

theorem bn_iszero_spec (a : BIGNUM) : bn_iszero a = true ↔ bnval a = 0 := by
  rw [bn_iszero, List.all_eq_true, bnval_eq_zero_iff]
  simp

/-! ### bn_cmp -/

theorem bnval_append_singleton (l : List Nat) (h : Nat) :
    bnval (l ++ [h]) = bnval l + h * (2 ^ BN_BASE_BITS) ^ l.length := by
  induction l with
  | nil => simp [bnval]
  | cons x xs ih =>
    have hcons : (x :: xs) ++ [h] = x :: (xs ++ [h]) := rfl
    rw [hcons]
    show x + 2 ^ BN_BASE_BITS * bnval (xs ++ [h]) = _
    rw [ih]
    simp only [bnval, List.length_cons, pow_succ]
    ring

theorem bnval_dominate (u v x y P : Nat) (hu : u < P) (hxy : x < y) :
    u + x * P < v + y * P := by
  calc u + x * P < P + x * P := by omega
    _ = (x + 1) * P := by ring
    _ ≤ y * P := Nat.mul_le_mul_right P (by omega)
    _ ≤ v + y * P := by omega

theorem bn_cmp_loop_spec (x : List Nat) : ∀ (y : List Nat),
    x.length = y.length → (∀ z ∈ x, z < 2 ^ BN_BASE_BITS) →
    (∀ z ∈ y, z < 2 ^ BN_BASE_BITS) →
    (bn_cmp_loop x y = -1 ↔ bnval x.reverse < bnval y.reverse)
    ∧ (bn_cmp_loop x y = 0 ↔ bnval x.reverse = bnval y.reverse)
    ∧ (bn_cmp_loop x y = 1 ↔ bnval y.reverse < bnval x.reverse) := by
  induction x with
  | nil =>
    intro y hlen _ _
    have hy : y = [] := by
      cases y
      · rfl
      · simp at hlen
    subst hy
    refine ⟨?_, ?_, ?_⟩ <;> simp [bn_cmp_loop, bnval]
  | cons x xs ih =>
    intro y hlen hx hy
    cases y with
    | nil => simp at hlen
    | cons y0 ys =>
      have hlen' : xs.length = ys.length := by simpa using hlen
      have hxv : x < 2 ^ BN_BASE_BITS := hx x (by simp)
      have hyv : y0 < 2 ^ BN_BASE_BITS := hy y0 (by simp)
      have hxs : ∀ z ∈ xs, z < 2 ^ BN_BASE_BITS := fun z hz => hx z (by simp [hz])
      have hys : ∀ z ∈ ys, z < 2 ^ BN_BASE_BITS := fun z hz => hy z (by simp [hz])
      have hrevx : bnval (x :: xs).reverse
          = bnval xs.reverse + x * (2 ^ BN_BASE_BITS) ^ xs.length := by
        rw [List.reverse_cons, bnval_append_singleton, List.length_reverse]
      have hrevy : bnval (y0 :: ys).reverse
          = bnval ys.reverse + y0 * (2 ^ BN_BASE_BITS) ^ xs.length := by
        rw [List.reverse_cons, bnval_append_singleton, List.length_reverse, hlen']
      have hux : bnval xs.reverse < (2 ^ BN_BASE_BITS) ^ xs.length := by
        have h2 := bnval_lt_pow xs.reverse fun z hz => hxs z (List.mem_reverse.mp hz)
        rwa [List.length_reverse] at h2
      have huy : bnval ys.reverse < (2 ^ BN_BASE_BITS) ^ xs.length := by
        have h2 := bnval_lt_pow ys.reverse fun z hz => hys z (List.mem_reverse.mp hz)
        rw [List.length_reverse, ← hlen'] at h2
        exact h2
      rcases Nat.lt_trichotomy x y0 with hlt | heq | hgt
      · have hloop : bn_cmp_loop (x :: xs) (y0 :: ys) = -1 := by
          simp [bn_cmp_loop, hlt]
        have hval : bnval (x :: xs).reverse < bnval (y0 :: ys).reverse := by
          rw [hrevx, hrevy]
          exact bnval_dominate _ _ _ _ _ hux hlt
        rw [hloop]
        refine ⟨⟨fun _ => hval, fun _ => rfl⟩, ?_, ?_⟩
        · exact ⟨fun h => absurd h (by decide), fun h => by omega⟩
        · exact ⟨fun h => absurd h (by decide), fun h => by omega⟩
      · subst heq
        have hloop : bn_cmp_loop (x :: xs) (x :: ys) = bn_cmp_loop xs ys := by
          simp [bn_cmp_loop]
        obtain ⟨ih1, ih2, ih3⟩ := ih ys hlen' hxs hys
        rw [hloop, hrevx, hrevy]
        refine ⟨?_, ?_, ?_⟩
        · rw [ih1]
          omega
        · rw [ih2]
          omega
        · rw [ih3]
          omega
      · have hloop : bn_cmp_loop (x :: xs) (y0 :: ys) = 1 := by
          have hnl : ¬ x < y0 := by omega
          simp [bn_cmp_loop, hnl, hgt]
        have hval : bnval (y0 :: ys).reverse < bnval (x :: xs).reverse := by
          rw [hrevx, hrevy]
          exact bnval_dominate _ _ _ _ _ huy hgt
        rw [hloop]
        refine ⟨?_, ?_, ⟨fun _ => hval, fun _ => rfl⟩⟩
        · exact ⟨fun h => absurd h (by decide), fun h => by omega⟩
        · exact ⟨fun h => absurd h (by decide), fun h => by omega⟩

theorem bn_cmp_spec (a b : BIGNUM) (ha : bn_wf a) (hb : bn_wf b) :
    (bn_cmp a b = -1 ↔ bnval a < bnval b)
    ∧ (bn_cmp a b = 0 ↔ bnval a = bnval b)
    ∧ (bn_cmp a b = 1 ↔ bnval b < bnval a) := by
  have key := bn_cmp_loop_spec a.reverse b.reverse
    (by rw [List.length_reverse, List.length_reverse, ha.1, hb.1])
    (fun z hz => ha.2 z (List.mem_reverse.mp hz))
    (fun z hz => hb.2 z (List.mem_reverse.mp hz))
  rw [List.reverse_reverse, List.reverse_reverse] at key
  exact key

theorem bn_cmp_self (a : BIGNUM) : bn_cmp a a = 0 := by
  rw [bn_cmp]
  induction a.reverse with
  | nil => rfl
  | cons x xs ih => simp [bn_cmp_loop, ih]

theorem bn_cmp_ge_iff (a b : BIGNUM) (ha : bn_wf a) (hb : bn_wf b) :
    0 ≤ bn_cmp a b ↔ bnval b ≤ bnval a := by
  obtain ⟨h1, h2, h3⟩ := bn_cmp_spec a b ha hb
  rcases Nat.lt_trichotomy (bnval a) (bnval b) with hlt | heq | hgt
  · rw [h1.mpr hlt]
    constructor
    · intro h
      exact absurd h (by decide)
    · intro h
      omega
  · rw [h2.mpr heq]
    constructor
    · intro _
      omega
    · intro _
      decide
  · rw [h3.mpr hgt]
    constructor
    · intro _
      omega
    · intro _
      decide

/-! ### bn_div -/

theorem bn_clear_wf : bn_wf bn_clear := by decide

theorem bn_clear_val : bnval bn_clear = 0 := by decide

theorem bnval_encode (v : Nat) (hv : v < 2 ^ BN_BITS) :
    ∃ a : BIGNUM, bn_wf a ∧ bnval a = v := by
  have h64 : (2:Nat) ^ BN_BITS = 18446744073709551616 := by norm_num [BN_BITS]
  refine ⟨[v % 65536, v / 65536 % 65536, v / 65536 / 65536 % 65536,
      v / 65536 / 65536 / 65536 % 65536],
    ⟨by norm_num [BN_SZ, BN_BITS], ?_⟩, ?_⟩
  · intro x hx
    have hB : (2:Nat) ^ BN_BASE_BITS = 65536 := by norm_num [BN_BASE_BITS]
    rw [hB]
    simp only [List.mem_cons, List.not_mem_nil, or_false] at hx
    rcases hx with rfl | rfl | rfl | rfl <;> omega
  · simp only [bnval]
    have hB : (2:Nat) ^ BN_BASE_BITS = 65536 := by norm_num [BN_BASE_BITS]
    rw [hB]
    rw [h64] at hv
    omega

/-- One step of binary long division: if r' is the remainder of A/2 by D and
    b is the low bit of A, then 2r'+b determines A's quotient and remainder
    by one trial subtraction. -/
theorem binary_div_step (A D : Nat) (hD : 0 < D) :
    (D ≤ 2 * (A / 2 % D) + A % 2 →
      A % D = 2 * (A / 2 % D) + A % 2 - D ∧ A / D = 2 * (A / 2 / D) + 1)
    ∧ (2 * (A / 2 % D) + A % 2 < D →
      A % D = 2 * (A / 2 % D) + A % 2 ∧ A / D = 2 * (A / 2 / D)) := by
  have h1 := Nat.div_add_mod (A / 2) D
  have h2 := Nat.div_add_mod A 2
  have hMlt : A / 2 % D < D := Nat.mod_lt _ hD
  constructor
  · intro hge
    have hprod : D * (2 * (A / 2 / D) + 1) = 2 * (D * (A / 2 / D)) + D := by ring
    have key : (2 * (A / 2 % D) + A % 2 - D) + D * (2 * (A / 2 / D) + 1) = A := by
      rw [hprod]
      omega
    have hrlt : 2 * (A / 2 % D) + A % 2 - D < D := by omega
    have hu := (Nat.div_mod_unique hD).mpr ⟨key, hrlt⟩
    exact ⟨hu.2, hu.1⟩
  · intro hlt
    have hprod : D * (2 * (A / 2 / D)) = 2 * (D * (A / 2 / D)) := by ring
    have key : (2 * (A / 2 % D) + A % 2) + D * (2 * (A / 2 / D)) = A := by
      rw [hprod]
      omega
    have hu := (Nat.div_mod_unique hD).mpr ⟨key, hlt⟩
    exact ⟨hu.2, hu.1⟩

theorem bn_div_loop_spec (n d : BIGNUM) (hn : bn_wf n) (hd : bn_wf d)
    (hdnz : 0 < bnval d) : ∀ (k : Nat), k ≤ BN_BITS → ∀ (r : BIGNUM) (q : Option BIGNUM),
    bn_wf r → bnval r = bnval n / 2 ^ k % bnval d →
    (∀ qv, q = some qv → bn_wf qv ∧ bnval qv = bnval n / 2 ^ k / bnval d * 2 ^ k) →
    bn_wf (bn_div_loop n d k r q).1
    ∧ bnval (bn_div_loop n d k r q).1 = bnval n % bnval d
    ∧ (q = none → (bn_div_loop n d k r q).2 = none)
    ∧ (∀ qv, q = some qv → ∃ qv', (bn_div_loop n d k r q).2 = some qv'
        ∧ bn_wf qv' ∧ bnval qv' = bnval n / bnval d) := by
  intro k
  induction k with
  | zero =>
    intro _ r q hr hrval hq
    refine ⟨hr, by simpa using hrval, ?_, ?_⟩
    · intro h
      simpa [bn_div_loop] using h
    · intro qv hqv
      refine ⟨qv, by simpa [bn_div_loop] using hqv, (hq qv hqv).1, ?_⟩
      have h2 := (hq qv hqv).2
      simpa using h2
  | succ k ih =>
    intro hk r q hr hrval hq
    have hBITS : BN_BITS = 64 := rfl
    have h64 : (2:Nat) ^ BN_BITS = 18446744073709551616 := by norm_num [BN_BITS]
    have hN : bnval n < 2 ^ BN_BITS := bnval_wf_lt n hn
    have hA2 : bnval n / 2 ^ k / 2 = bnval n / 2 ^ (k + 1) := by
      rw [Nat.div_div_eq_div_mul, pow_succ]
    have hrval' : bnval r = bnval n / 2 ^ k / 2 % bnval d := by
      rw [hA2, hrval]
    have hrbound : bnval r ≤ 2 ^ 63 - 1 := by
      have hmle : bnval n / 2 ^ (k + 1) % bnval d ≤ bnval n / 2 ^ (k + 1) := Nat.mod_le _ _
      have hd2 : bnval n / 2 ^ (k + 1) = bnval n / 2 / 2 ^ k := by
        rw [Nat.div_div_eq_div_mul]
        congr 1
        rw [pow_succ]
        ring
      have hd3 : bnval n / 2 / 2 ^ k ≤ bnval n / 2 := Nat.div_le_self _ _
      rw [hd2] at hmle
      rw [h64] at hN
      rw [hrval, hd2]
      omega
    obtain ⟨hshl_val, hshl_wf⟩ := bn_shl_spec r hr
    have hshl_exact : bnval (bn_shl r) = 2 * bnval r := by
      rw [hshl_val, Nat.mod_eq_of_lt]
      rw [h64]
      omega
    have hshl_even : bnval (bn_shl r) % 2 = 0 := by
      rw [hshl_exact]
      omega
    have hble : bn_get_bit n k ≤ 1 := by
      rw [bn_get_bit_spec n hn.2 k]
      split <;> omega
    have hbval : bn_get_bit n k = bnval n / 2 ^ k % 2 := by
      rw [bn_get_bit_spec n hn.2 k, Nat.testBit_to_div_mod]
      rcases Nat.mod_two_eq_zero_or_one (bnval n / 2 ^ k) with h | h <;> simp [h]
    have hlen_shl : 0 < (bn_shl r).length := by
      rw [hshl_wf.1]
      norm_num [BN_SZ, BN_BITS]
    obtain ⟨hr1_val, hr1_len, hr1_limbs⟩ :=
      bn_set_bit0_spec (bn_shl r) hshl_wf.2 hlen_shl hshl_even (bn_get_bit n k) hble
    have hr1_wf : bn_wf (bn_set_bit (bn_shl r) 0 (bn_get_bit n k)) :=
      ⟨hr1_len.trans hshl_wf.1, hr1_limbs⟩
    have hr1v : bnval (bn_set_bit (bn_shl r) 0 (bn_get_bit n k))
        = 2 * (bnval n / 2 ^ k / 2 % bnval d) + bnval n / 2 ^ k % 2 := by
      rw [hr1_val, hshl_exact, hrval', hbval]
    have hstep := binary_div_step (bnval n / 2 ^ k) (bnval d) hdnz
    have hkle : k ≤ BN_BITS := by omega
    by_cases hge : bnval d ≤ bnval (bn_set_bit (bn_shl r) 0 (bn_get_bit n k))
    · have hcmp : 0 ≤ bn_cmp (bn_set_bit (bn_shl r) 0 (bn_get_bit n k)) d :=
        (bn_cmp_ge_iff _ d hr1_wf hd).mpr hge
      have hloop_eq : bn_div_loop n d (k + 1) r q
          = bn_div_loop n d k (bn_sub (bn_set_bit (bn_shl r) 0 (bn_get_bit n k)) d).2
              (q.map fun v => bn_set_bit v k 1) := by
        simp only [bn_div_loop]
        rw [if_pos hcmp]
      have hgeA : bnval d ≤ 2 * (bnval n / 2 ^ k / 2 % bnval d) + bnval n / 2 ^ k % 2 := by
        rw [← hr1v]
        exact hge
      obtain ⟨hmod_eq, hdiv_eq⟩ := hstep.1 hgeA
      have hsub_val : bnval (bn_sub (bn_set_bit (bn_shl r) 0 (bn_get_bit n k)) d).2
          = bnval n / 2 ^ k % bnval d := by
        rw [bn_sub_exact _ d hr1_wf hd hge, hr1v, hmod_eq]
      have hsub_wf : bn_wf (bn_sub (bn_set_bit (bn_shl r) 0 (bn_get_bit n k)) d).2 :=
        (bn_sub_spec _ d hr1_wf hd).2.2
      have hq' : ∀ qv, (q.map fun v => bn_set_bit v k 1) = some qv →
          bn_wf qv ∧ bnval qv = bnval n / 2 ^ k / bnval d * 2 ^ k := by
        intro qv hqv
        rcases q with - | qv0
        · simp at hqv
        · obtain ⟨hqwf, hqval⟩ := hq qv0 rfl
          have hqbit : (bnval qv0).testBit k = false := by
            rw [Nat.testBit_to_div_mod, hqval]
            have hgen : ∀ x : Nat, x * 2 ^ (k + 1) / 2 ^ k = 2 * x := by
              intro x
              calc x * 2 ^ (k + 1) / 2 ^ k = 2 * x * 2 ^ k / 2 ^ k := by
                    rw [pow_succ]
                    ring_nf
                _ = 2 * x := Nat.mul_div_cancel _ (by positivity)
            rw [hgen]
            simp
          have hkbit : k < BN_BASE_BITS * qv0.length := by
            have hBB : BN_BASE_BITS = 16 := rfl
            rw [hqwf.1, hBB]
            have hSZ : BN_SZ = 4 := rfl
            rw [hSZ]
            rw [hBITS] at hk
            omega
          obtain ⟨hsv, hsl, hslimbs⟩ := bn_set_bit_one_spec qv0 hqwf.2 k hkbit hqbit
          have hqv2 : bn_set_bit qv0 k 1 = qv := by simpa using hqv
          subst hqv2
          refine ⟨⟨hsl.trans hqwf.1, hslimbs⟩, ?_⟩
          rw [hsv, hqval, hdiv_eq, ← hA2]
          rw [pow_succ]
          ring
      obtain ⟨c1, c2, c3, c4⟩ := ih hkle _ _ hsub_wf hsub_val hq'
      rw [hloop_eq]
      refine ⟨c1, c2, ?_, ?_⟩
      · intro hnone
        subst hnone
        exact c3 rfl
      · intro qv hqv
        subst hqv
        exact c4 (bn_set_bit qv k 1) (by simp)
    · push_neg at hge
      have hcmp : ¬ 0 ≤ bn_cmp (bn_set_bit (bn_shl r) 0 (bn_get_bit n k)) d := by
        intro hcontra
        have := (bn_cmp_ge_iff _ d hr1_wf hd).mp hcontra
        omega
      have hloop_eq : bn_div_loop n d (k + 1) r q
          = bn_div_loop n d k (bn_set_bit (bn_shl r) 0 (bn_get_bit n k)) q := by
        simp only [bn_div_loop]
        rw [if_neg hcmp]
      have hltA : 2 * (bnval n / 2 ^ k / 2 % bnval d) + bnval n / 2 ^ k % 2 < bnval d := by
        rw [← hr1v]
        exact hge
      obtain ⟨hmod_eq, hdiv_eq⟩ := hstep.2 hltA
      have hrv : bnval (bn_set_bit (bn_shl r) 0 (bn_get_bit n k))
          = bnval n / 2 ^ k % bnval d := by
        rw [hr1v, hmod_eq]
      have hq' : ∀ qv, q = some qv →
          bn_wf qv ∧ bnval qv = bnval n / 2 ^ k / bnval d * 2 ^ k := by
        intro qv hqv
        obtain ⟨hqwf, hqval⟩ := hq qv hqv
        refine ⟨hqwf, ?_⟩
        rw [hqval, hdiv_eq, ← hA2, pow_succ]
        ring
      obtain ⟨c1, c2, c3, c4⟩ := ih hkle _ _ hr1_wf hrv hq'
      rw [hloop_eq]
      exact ⟨c1, c2, c3, c4⟩

theorem bn_iszero_false_pos (d : BIGNUM) (h : bn_iszero d = false) : 0 < bnval d := by
  rcases Nat.eq_zero_or_pos (bnval d) with h0 | hpos
  · have := (bn_iszero_spec d).mpr h0
    rw [h] at this
    exact absurd this (by decide)
  · exact hpos

theorem bn_div_spec (n d : BIGNUM) (hn : bn_wf n) (hd : bn_wf d)
    (hdnz : bn_iszero d = false) (wantq wantr : Bool) :
    ∃ qv rv : BIGNUM,
      bn_div n d wantq wantr
        = (BN_ERR.BN_OK, (if wantq then some qv else none), (if wantr then some rv else none))
      ∧ bn_wf qv ∧ bn_wf rv
      ∧ bnval qv = bnval n / bnval d ∧ bnval rv = bnval n % bnval d := by
  have hdpos : 0 < bnval d := bn_iszero_false_pos d hdnz
  have hN : bnval n < 2 ^ BN_BITS := bnval_wf_lt n hn
  have h64 : (2:Nat) ^ BN_BITS = 18446744073709551616 := by norm_num [BN_BITS]
  have hdiv64 : bnval n / 2 ^ BN_BITS = 0 := Nat.div_eq_of_lt hN
  have hr0val : bnval bn_clear = bnval n / 2 ^ BN_BITS % bnval d := by
    rw [bn_clear_val, hdiv64]
    simp
  have hvq : bnval n / bnval d < 2 ^ BN_BITS :=
    lt_of_le_of_lt (Nat.div_le_self _ _) hN
  cases wantq with
  | false =>
    obtain ⟨c1, c2, c3, -⟩ := bn_div_loop_spec n d hn hd hdpos BN_BITS (le_refl _)
      bn_clear none bn_clear_wf hr0val (by intro qv h; simp at h)
    obtain ⟨qe, hqe_wf, hqe_val⟩ := bnval_encode (bnval n / bnval d) hvq
    refine ⟨qe, (bn_div_loop n d BN_BITS bn_clear none).1, ?_, hqe_wf, c1, hqe_val, c2⟩
    rw [bn_div, hdnz]
    have hnone := c3 rfl
    cases wantr <;> simp [hnone]
  | true =>
    obtain ⟨c1, c2, -, c4⟩ := bn_div_loop_spec n d hn hd hdpos BN_BITS (le_refl _)
      bn_clear (some bn_clear) bn_clear_wf hr0val
      (by
        intro qv h
        rw [Option.some_inj] at h
        subst h
        refine ⟨bn_clear_wf, ?_⟩
        rw [bn_clear_val, hdiv64]
        simp)
    obtain ⟨qv', hqeq, hqwf, hqval⟩ := c4 bn_clear rfl
    refine ⟨qv', (bn_div_loop n d BN_BITS bn_clear (some bn_clear)).1, ?_, hqwf, c1, hqval, c2⟩
    rw [bn_div, hdnz]
    cases wantr <;> simp [hqeq]

/-! ### bn_mul -/

theorem bn_get_bit0 (a : BIGNUM) (ha : ∀ x ∈ a, x < 2 ^ BN_BASE_BITS) :
    bn_get_bit a 0 = bnval a % 2 := by
  rw [bn_get_bit_spec a ha 0, Nat.testBit_zero]
  rcases Nat.mod_two_eq_zero_or_one (bnval a) with h | h <;> simp [h]

theorem bn_mul_loop_exact : ∀ (fuel : Nat) (a_l b_l out : BIGNUM) (B : Nat),
    bn_wf a_l → bn_wf b_l → bn_wf out →
    bnval b_l = B % 2 ^ BN_BITS →
    bnval a_l < 2 ^ fuel →
    bnval out + bnval a_l * B < 2 ^ BN_BITS →
    (bn_mul_loop fuel a_l b_l out).1 = BN_ERR.BN_OK
    ∧ bn_wf (bn_mul_loop fuel a_l b_l out).2
    ∧ bnval (bn_mul_loop fuel a_l b_l out).2 = bnval out + bnval a_l * B := by
  intro fuel
  induction fuel with
  | zero =>
    intro a_l b_l out B ha hb hout hbB hfuel hfit
    have ha0 : bnval a_l = 0 := by omega
    simp only [bn_mul_loop]
    rw [ha0] at hfit ⊢
    exact ⟨by trivial, hout, by omega⟩
  | succ fuel ih =>
    intro a_l b_l out B ha hb hout hbB hfuel hfit
    by_cases hz : bn_iszero a_l = true
    · have ha0 : bnval a_l = 0 := (bn_iszero_spec a_l).mp hz
      simp only [bn_mul_loop, hz, if_true]
      rw [ha0]
      exact ⟨by trivial, hout, by omega⟩
    · have hz' : bn_iszero a_l = false := by
        cases h : bn_iszero a_l
        · rfl
        · exact absurd h hz
      have hapos : 0 < bnval a_l := bn_iszero_false_pos a_l hz'
      have hgb : bn_get_bit a_l 0 = bnval a_l % 2 := bn_get_bit0 a_l ha.2
      obtain ⟨hshr_val, hshr_wf⟩ := bn_shr_wf a_l ha
      obtain ⟨hshl_val, hshl_wf⟩ := bn_shl_spec b_l hb
      have hfuel' : bnval (bn_shr a_l) < 2 ^ fuel := by
        rw [hshr_val]
        rw [pow_succ] at hfuel
        omega
      have hshl_B : bnval (bn_shl b_l) = 2 * B % 2 ^ BN_BITS := by
        rw [hshl_val, hbB]
        have hcong : 2 * (B % 2 ^ BN_BITS) ≡ 2 * B [MOD 2 ^ BN_BITS] :=
          Nat.ModEq.mul_left 2 (Nat.mod_modEq B (2 ^ BN_BITS))
        exact hcong
      rcases Nat.mod_two_eq_zero_or_one (bnval a_l) with heven | hodd
      · -- even: skip the add
        have hbit : ¬ bn_get_bit a_l 0 = 1 := by
          rw [hgb, heven]
          omega
        have hloop : bn_mul_loop (fuel + 1) a_l b_l out
            = bn_mul_loop fuel (bn_shr a_l) (bn_shl b_l) out := by
          simp only [bn_mul_loop, hz', Bool.false_eq_true, if_false, hbit, reduceIte]
        have haeq : bnval a_l = 2 * (bnval a_l / 2) := by omega
        have hmul_eq : bnval a_l / 2 * (2 * B) = bnval a_l * B := by
          calc bnval a_l / 2 * (2 * B) = 2 * (bnval a_l / 2) * B := by ring
            _ = bnval a_l * B := by rw [← haeq]
        have hfit' : bnval out + bnval (bn_shr a_l) * (2 * B) < 2 ^ BN_BITS := by
          rw [hshr_val, hmul_eq]
          exact hfit
        obtain ⟨c1, c2, c3⟩ := ih (bn_shr a_l) (bn_shl b_l) out (2 * B)
          hshr_wf hshl_wf hout hshl_B hfuel' hfit'
        rw [hloop]
        refine ⟨c1, c2, ?_⟩
        rw [c3, hshr_val, hmul_eq]
      · -- odd: add b_l into out first
        have hbit : bn_get_bit a_l 0 = 1 := by rw [hgb, hodd]
        have hBlt : B < 2 ^ BN_BITS := by
          have h1 : B ≤ bnval a_l * B := Nat.le_mul_of_pos_left B hapos
          omega
        have hbB' : bnval b_l = B := by
          rw [hbB, Nat.mod_eq_of_lt hBlt]
        have hsum : bnval out + bnval b_l < 2 ^ BN_BITS := by
          rw [hbB']
          have h1 : B ≤ bnval a_l * B := Nat.le_mul_of_pos_left B hapos
          omega
        obtain ⟨hovf_iff, hok_iff, hval, hwf⟩ := bn_add_spec out b_l hout hb
        have haddok : (bn_add out b_l).1 = BN_ERR.BN_OK := hok_iff.mpr hsum
        have haddval : bnval (bn_add out b_l).2 = bnval out + bnval b_l := by
          rw [hval, Nat.mod_eq_of_lt hsum]
        have hloop : bn_mul_loop (fuel + 1) a_l b_l out
            = bn_mul_loop fuel (bn_shr a_l) (bn_shl b_l) (bn_add out b_l).2 := by
          simp only [bn_mul_loop, hz', Bool.false_eq_true, if_false, hbit, reduceIte, if_true,
            haddok]
        have haeq : bnval a_l = 2 * (bnval a_l / 2) + 1 := by omega
        have hfit' : bnval (bn_add out b_l).2 + bnval (bn_shr a_l) * (2 * B) < 2 ^ BN_BITS := by
          rw [haddval, hshr_val, hbB']
          calc bnval out + B + bnval a_l / 2 * (2 * B)
              = bnval out + (2 * (bnval a_l / 2) + 1) * B := by ring
            _ = bnval out + bnval a_l * B := by rw [← haeq]
            _ < 2 ^ BN_BITS := hfit
        obtain ⟨c1, c2, c3⟩ := ih (bn_shr a_l) (bn_shl b_l) (bn_add out b_l).2 (2 * B)
          hshr_wf hshl_wf hwf hshl_B hfuel' hfit'
        rw [hloop]
        refine ⟨c1, c2, ?_⟩
        rw [c3, haddval, hshr_val, hbB']
        calc bnval out + B + bnval a_l / 2 * (2 * B)
            = bnval out + (2 * (bnval a_l / 2) + 1) * B := by ring
          _ = bnval out + bnval a_l * B := by rw [← haeq]

theorem bn_mul_exact (a b : BIGNUM) (ha : bn_wf a) (hb : bn_wf b)
    (hfit : bnval a * bnval b < 2 ^ BN_BITS) :
    (bn_mul a b).1 = BN_ERR.BN_OK
    ∧ bn_wf (bn_mul a b).2
    ∧ bnval (bn_mul a b).2 = bnval a * bnval b := by
  have hB : bnval b = bnval b % 2 ^ BN_BITS :=
    (Nat.mod_eq_of_lt (bnval_wf_lt b hb)).symm
  have hfuel : bnval a < 2 ^ (BN_BITS + 1) := by
    have := bnval_wf_lt a ha
    have hmono : (2:Nat) ^ BN_BITS < 2 ^ (BN_BITS + 1) :=
      Nat.pow_lt_pow_right (by norm_num) (by omega)
    omega
  have hfit' : bnval bn_clear + bnval a * bnval b < 2 ^ BN_BITS := by
    rw [bn_clear_val]
    omega
  obtain ⟨c1, c2, c3⟩ := bn_mul_loop_exact (BN_BITS + 1) a b bn_clear (bnval b)
    ha hb bn_clear_wf hB hfuel hfit'
  refine ⟨c1, c2, ?_⟩
  rw [bn_mul, bn_copy, bn_copy] at *
  rw [c3, bn_clear_val]
  omega

theorem bn_mul_loop_mod : ∀ (fuel : Nat) (a_l b_l out : BIGNUM),
    bn_wf a_l → bn_wf b_l → bn_wf out →
    bnval a_l < 2 ^ fuel →
    (bn_mul_loop fuel a_l b_l out).1 = BN_ERR.BN_OK →
    bn_wf (bn_mul_loop fuel a_l b_l out).2
    ∧ bnval (bn_mul_loop fuel a_l b_l out).2
        = (bnval out + bnval a_l * bnval b_l) % 2 ^ BN_BITS := by
  intro fuel
  induction fuel with
  | zero =>
    intro a_l b_l out ha hb hout hfuel _
    have ha0 : bnval a_l = 0 := by omega
    simp only [bn_mul_loop]
    rw [ha0, Nat.zero_mul, Nat.add_zero]
    exact ⟨hout, (Nat.mod_eq_of_lt (bnval_wf_lt out hout)).symm⟩
  | succ fuel ih =>
    intro a_l b_l out ha hb hout hfuel hok
    by_cases hz : bn_iszero a_l = true
    · have ha0 : bnval a_l = 0 := (bn_iszero_spec a_l).mp hz
      simp only [bn_mul_loop, hz, if_true]
      rw [ha0, Nat.zero_mul, Nat.add_zero]
      exact ⟨hout, (Nat.mod_eq_of_lt (bnval_wf_lt out hout)).symm⟩
    · have hz' : bn_iszero a_l = false := by
        cases h : bn_iszero a_l
        · rfl
        · exact absurd h hz
      have hgb : bn_get_bit a_l 0 = bnval a_l % 2 := bn_get_bit0 a_l ha.2
      obtain ⟨hshr_val, hshr_wf⟩ := bn_shr_wf a_l ha
      obtain ⟨hshl_val, hshl_wf⟩ := bn_shl_spec b_l hb
      have hfuel' : bnval (bn_shr a_l) < 2 ^ fuel := by
        rw [hshr_val]
        rw [pow_succ] at hfuel
        omega
      rcases Nat.mod_two_eq_zero_or_one (bnval a_l) with heven | hodd
      · have hbit : ¬ bn_get_bit a_l 0 = 1 := by
          rw [hgb, heven]
          omega
        have hloop : bn_mul_loop (fuel + 1) a_l b_l out
            = bn_mul_loop fuel (bn_shr a_l) (bn_shl b_l) out := by
          simp only [bn_mul_loop, hz', Bool.false_eq_true, if_false, hbit, reduceIte]
        rw [hloop] at hok ⊢
        obtain ⟨c2, c3⟩ := ih (bn_shr a_l) (bn_shl b_l) out hshr_wf hshl_wf hout hfuel' hok
        refine ⟨c2, ?_⟩
        rw [c3, hshr_val, hshl_val]
        have e1 : bnval a_l / 2 * (2 * bnval b_l % 2 ^ BN_BITS)
            ≡ bnval a_l / 2 * (2 * bnval b_l) [MOD 2 ^ BN_BITS] :=
          Nat.ModEq.mul_left _ (Nat.mod_modEq _ _)
        have e2 : bnval out + bnval a_l / 2 * (2 * bnval b_l % 2 ^ BN_BITS)
            ≡ bnval out + bnval a_l / 2 * (2 * bnval b_l) [MOD 2 ^ BN_BITS] :=
          Nat.ModEq.add_left _ e1
        have e3 : (bnval out + bnval a_l / 2 * (2 * bnval b_l % 2 ^ BN_BITS)) % 2 ^ BN_BITS
            = (bnval out + bnval a_l / 2 * (2 * bnval b_l)) % 2 ^ BN_BITS := e2
        rw [e3]
        have haeq : bnval a_l = 2 * (bnval a_l / 2) := by omega
        have e4 : bnval a_l / 2 * (2 * bnval b_l) = bnval a_l * bnval b_l := by
          calc bnval a_l / 2 * (2 * bnval b_l)
              = 2 * (bnval a_l / 2) * bnval b_l := by ring
            _ = bnval a_l * bnval b_l := by rw [← haeq]
        rw [e4]
      · have hbit : bn_get_bit a_l 0 = 1 := by rw [hgb, hodd]
        by_cases haddok : (bn_add out b_l).1 = BN_ERR.BN_OK
        · have hloop : bn_mul_loop (fuel + 1) a_l b_l out
              = bn_mul_loop fuel (bn_shr a_l) (bn_shl b_l) (bn_add out b_l).2 := by
            simp only [bn_mul_loop, hz', Bool.false_eq_true, if_false, hbit, reduceIte, if_true,
              haddok]
          obtain ⟨-, -, haddval, haddwf⟩ := bn_add_spec out b_l hout hb
          rw [hloop] at hok ⊢
          obtain ⟨c2, c3⟩ := ih (bn_shr a_l) (bn_shl b_l) (bn_add out b_l).2
            hshr_wf hshl_wf haddwf hfuel' hok
          refine ⟨c2, ?_⟩
          rw [c3, haddval, hshr_val, hshl_val, Nat.mod_add_mod]
          have e1 : bnval a_l / 2 * (2 * bnval b_l % 2 ^ BN_BITS)
              ≡ bnval a_l / 2 * (2 * bnval b_l) [MOD 2 ^ BN_BITS] :=
            Nat.ModEq.mul_left _ (Nat.mod_modEq _ _)
          have e2 : bnval out + bnval b_l + bnval a_l / 2 * (2 * bnval b_l % 2 ^ BN_BITS)
              ≡ bnval out + bnval b_l + bnval a_l / 2 * (2 * bnval b_l) [MOD 2 ^ BN_BITS] :=
            Nat.ModEq.add_left _ e1
          have e3 : (bnval out + bnval b_l + bnval a_l / 2 * (2 * bnval b_l % 2 ^ BN_BITS))
                % 2 ^ BN_BITS
              = (bnval out + bnval b_l + bnval a_l / 2 * (2 * bnval b_l)) % 2 ^ BN_BITS := e2
          rw [e3]
          have haeq : bnval a_l = 2 * (bnval a_l / 2) + 1 := by omega
          have e4 : bnval out + bnval b_l + bnval a_l / 2 * (2 * bnval b_l)
              = bnval out + bnval a_l * bnval b_l := by
            calc bnval out + bnval b_l + bnval a_l / 2 * (2 * bnval b_l)
                = bnval out + (2 * (bnval a_l / 2) + 1) * bnval b_l := by ring
              _ = bnval out + bnval a_l * bnval b_l := by rw [← haeq]
          rw [e4]
        · exfalso
          have hloop : bn_mul_loop (fuel + 1) a_l b_l out
              = ((bn_add out b_l).1, (bn_add out b_l).2) := by
            simp only [bn_mul_loop, hz', Bool.false_eq_true, if_false, hbit, reduceIte, if_true,
              haddok]
          rw [hloop] at hok
          exact haddok hok

theorem bn_mul_mod (a b : BIGNUM) (ha : bn_wf a) (hb : bn_wf b)
    (hok : (bn_mul a b).1 = BN_ERR.BN_OK) :
    bn_wf (bn_mul a b).2
    ∧ bnval (bn_mul a b).2 = bnval a * bnval b % 2 ^ BN_BITS := by
  have hfuel : bnval a < 2 ^ (BN_BITS + 1) := by
    have h1 := bnval_wf_lt a ha
    have hmono : (2:Nat) ^ BN_BITS < 2 ^ (BN_BITS + 1) :=
      Nat.pow_lt_pow_right (by norm_num) (by omega)
    omega
  rw [bn_mul, bn_copy, bn_copy] at hok ⊢
  obtain ⟨c2, c3⟩ := bn_mul_loop_mod (BN_BITS + 1) a b bn_clear ha hb bn_clear_wf hfuel hok
  refine ⟨c2, ?_⟩
  rw [c3, bn_clear_val, Nat.zero_add]

/-! ### bn_powmod -/

theorem bn_iszero_false_of_pos (d : BIGNUM) (h : 0 < bnval d) : bn_iszero d = false := by
  cases hz : bn_iszero d
  · rfl
  · have := (bn_iszero_spec d).mp hz
    omega

theorem mod_mul_pow_mod (m a b k : Nat) :
    a % m * (b % m) ^ k % m = a * b ^ k % m :=
  Nat.ModEq.mul (Nat.mod_modEq a m) ((Nat.mod_modEq b m).pow k)

theorem mul_mod_pow_mod (m a b k : Nat) :
    a * (b % m) ^ k % m = a * b ^ k % m :=
  Nat.ModEq.mul_left a ((Nat.mod_modEq b m).pow k)

theorem bn_powmod_loop_spec : ∀ (fuel : Nat) (modulus result base_l exponent_l : BIGNUM),
    bn_wf modulus → bn_wf result → bn_wf base_l → bn_wf exponent_l →
    0 < bnval modulus →
    bnval exponent_l < 2 ^ fuel →
    bn_powmod_fits_loop fuel modulus result base_l exponent_l = true →
    (bn_powmod_loop fuel modulus result base_l exponent_l).1 = BN_ERR.BN_OK
    ∧ bn_wf (bn_powmod_loop fuel modulus result base_l exponent_l).2
    ∧ bnval (bn_powmod_loop fuel modulus result base_l exponent_l).2
        = (if bnval exponent_l = 0 then bnval result
           else bnval result * bnval base_l ^ bnval exponent_l % bnval modulus) := by
  intro fuel
  induction fuel with
  | zero =>
    intro modulus result base_l exponent_l hm hres hbase hexp hmpos hfuel _
    have he0 : bnval exponent_l = 0 := by omega
    simp only [bn_powmod_loop]
    rw [he0]
    exact ⟨by trivial, hres, by simp⟩
  | succ fuel ih =>
    intro modulus result base_l exponent_l hm hres hbase hexp hmpos hfuel hfits
    have hmz : bn_iszero modulus = false := bn_iszero_false_of_pos modulus hmpos
    by_cases hz : bn_iszero exponent_l = true
    · have he0 : bnval exponent_l = 0 := (bn_iszero_spec exponent_l).mp hz
      simp only [bn_powmod_loop, hz, if_true]
      rw [he0]
      exact ⟨by trivial, hres, by simp⟩
    · have hz' : bn_iszero exponent_l = false := by
        cases h : bn_iszero exponent_l
        · rfl
        · exact absurd h hz
      have hepos : 0 < bnval exponent_l := bn_iszero_false_pos exponent_l hz'
      have hgb : bn_get_bit exponent_l 0 = bnval exponent_l % 2 := bn_get_bit0 exponent_l hexp.2
      obtain ⟨hshr_val, hshr_wf⟩ := bn_shr_wf exponent_l hexp
      have hfuel' : bnval (bn_shr exponent_l) < 2 ^ fuel := by
        rw [hshr_val]
        rw [pow_succ] at hfuel
        omega
      rcases Nat.mod_two_eq_zero_or_one (bnval exponent_l) with heven | hodd
      · -- even exponent: result untouched this round
        have hbit : ¬ bn_get_bit exponent_l 0 = 1 := by
          rw [hgb, heven]
          omega
        simp only [bn_powmod_fits_loop, hz', Bool.false_eq_true, if_false, hbit, reduceIte,
          Bool.and_eq_true, decide_eq_true_eq] at hfits
        obtain ⟨⟨-, hfit2⟩, hfitrec⟩ := hfits
        obtain ⟨hp2ok, hp2wf, hp2val⟩ := bn_mul_exact base_l base_l hbase hbase hfit2
        obtain ⟨qv2, bv, hdv2eq, -, hbvwf, -, hbvval⟩ :=
          bn_div_spec (bn_mul base_l base_l).2 modulus hp2wf hm hmz false true
        simp only [Bool.false_eq_true, if_false, if_true, reduceIte] at hdv2eq
        have hloop_eq : bn_powmod_loop (fuel + 1) modulus result base_l exponent_l
            = bn_powmod_loop fuel modulus result bv (bn_shr exponent_l) := by
          simp only [bn_powmod_loop, hz', Bool.false_eq_true, if_false, hbit, reduceIte,
            ne_eq, not_true_eq_false, hp2ok, hdv2eq, Option.getD_some, not_false_eq_true,
            if_true]
        rw [hdv2eq] at hfitrec
        simp only [Option.getD_some] at hfitrec
        obtain ⟨c1, c2, c3⟩ := ih modulus result bv (bn_shr exponent_l)
          hm hres hbvwf hshr_wf hmpos hfuel' hfitrec
        rw [hloop_eq]
        refine ⟨c1, c2, ?_⟩
        rw [c3, hshr_val]
        have hq_ne : ¬ bnval exponent_l / 2 = 0 := by omega
        rw [if_neg hq_ne, if_neg (by omega)]
        rw [hbvval, hp2val]
        rw [mul_mod_pow_mod]
        have hpow2 : (bnval base_l * bnval base_l) ^ (bnval exponent_l / 2)
            = bnval base_l ^ (2 * (bnval exponent_l / 2)) := by
          rw [← pow_two, ← pow_mul]
        rw [hpow2]
        have he2 : 2 * (bnval exponent_l / 2) = bnval exponent_l := by omega
        rw [he2]
      · -- odd exponent: result is multiplied by base and reduced
        have hbit : bn_get_bit exponent_l 0 = 1 := by rw [hgb, hodd]
        simp only [bn_powmod_fits_loop, hz', Bool.false_eq_true, if_false, hbit, reduceIte,
          Bool.and_eq_true, decide_eq_true_eq] at hfits
        obtain ⟨⟨hfit1, hfit2⟩, hfitrec⟩ := hfits
        obtain ⟨hpok, hpwf, hpval⟩ := bn_mul_exact result base_l hres hbase hfit1
        obtain ⟨qv1, rv, hdveq, -, hrvwf, -, hrvval⟩ :=
          bn_div_spec (bn_mul result base_l).2 modulus hpwf hm hmz false true
        simp only [Bool.false_eq_true, if_false, if_true, reduceIte] at hdveq
        obtain ⟨hp2ok, hp2wf, hp2val⟩ := bn_mul_exact base_l base_l hbase hbase hfit2
        obtain ⟨qv2, bv, hdv2eq, -, hbvwf, -, hbvval⟩ :=
          bn_div_spec (bn_mul base_l base_l).2 modulus hp2wf hm hmz false true
        simp only [Bool.false_eq_true, if_false, if_true, reduceIte] at hdv2eq
        have hloop_eq : bn_powmod_loop (fuel + 1) modulus result base_l exponent_l
            = bn_powmod_loop fuel modulus rv bv (bn_shr exponent_l) := by
          simp only [bn_powmod_loop, hz', Bool.false_eq_true, if_false, hbit, reduceIte,
            ne_eq, not_true_eq_false, hpok, hdveq, hp2ok, hdv2eq, Option.getD_some,
            not_false_eq_true, if_true]
        rw [hdveq, hdv2eq] at hfitrec
        simp only [Option.getD_some] at hfitrec
        obtain ⟨c1, c2, c3⟩ := ih modulus rv bv (bn_shr exponent_l)
          hm hrvwf hbvwf hshr_wf hmpos hfuel' hfitrec
        rw [hloop_eq]
        refine ⟨c1, c2, ?_⟩
        rw [c3, hshr_val]
        have hodd_e : bnval exponent_l = 2 * (bnval exponent_l / 2) + 1 := by omega
        rw [if_neg (show ¬ bnval exponent_l = 0 by omega)]
        by_cases hq0 : bnval exponent_l / 2 = 0
        · rw [if_pos hq0]
          have he1 : bnval exponent_l = 1 := by omega
          rw [hrvval, hpval, he1, pow_one]
        · rw [if_neg hq0]
          rw [hrvval, hbvval, hpval, hp2val]
          rw [mod_mul_pow_mod]
          have hpow2 : (bnval base_l * bnval base_l) ^ (bnval exponent_l / 2)
              = bnval base_l ^ (2 * (bnval exponent_l / 2)) := by
            rw [← pow_two, ← pow_mul]
          have hassoc : bnval result * bnval base_l
                * bnval base_l ^ (2 * (bnval exponent_l / 2))
              = bnval result * bnval base_l ^ (2 * (bnval exponent_l / 2) + 1) := by
            rw [pow_succ]
            ring
          rw [hpow2, hassoc, ← hodd_e]

theorem bn_powmod_spec (base exponent modulus : BIGNUM) (hb : bn_wf base)
    (he : bn_wf exponent) (hm : bn_wf modulus)
    (hmnz : bn_iszero modulus = false)
    (hfits : bn_powmod_fits base exponent modulus = true)
    (hnot : ¬ (bnval modulus = 1 ∧ bnval exponent = 0)) :
    (bn_powmod base exponent modulus).1 = BN_ERR.BN_OK
    ∧ bn_wf (bn_powmod base exponent modulus).2
    ∧ bnval (bn_powmod base exponent modulus).2
        = bnval base ^ bnval exponent % bnval modulus := by
  have hmpos : 0 < bnval modulus := bn_iszero_false_pos modulus hmnz
  have hone_wf : bn_wf [1, 0, 0, 0] := by decide
  have hone_val : bnval [1, 0, 0, 0] = 1 := by decide
  have hload : bn_load_int 1 = (BN_ERR.BN_OK, [1, 0, 0, 0]) := by decide
  have hpm : bn_powmod base exponent modulus
      = bn_powmod_loop (BN_BITS + 1) modulus [1, 0, 0, 0] base exponent := by
    rw [bn_powmod, hload]
    simp [bn_copy]
  have hfits' : bn_powmod_fits_loop (BN_BITS + 1) modulus [1, 0, 0, 0] base exponent = true := by
    rw [bn_powmod_fits, hload] at hfits
    simpa [bn_copy] using hfits
  have hfuel : bnval exponent < 2 ^ (BN_BITS + 1) := by
    have h1 := bnval_wf_lt exponent he
    have hmono : (2:Nat) ^ BN_BITS < 2 ^ (BN_BITS + 1) :=
      Nat.pow_lt_pow_right (by norm_num) (by omega)
    omega
  obtain ⟨c1, c2, c3⟩ := bn_powmod_loop_spec (BN_BITS + 1) modulus [1, 0, 0, 0] base exponent
    hm hone_wf hb he hmpos hfuel hfits'
  rw [hpm]
  refine ⟨c1, c2, ?_⟩
  rw [c3, hone_val]
  by_cases he0 : bnval exponent = 0
  · rw [if_pos he0, he0, pow_zero]
    have hm1 : bnval modulus ≠ 1 := by
      intro hcontra
      exact hnot ⟨hcontra, he0⟩
    rw [Nat.mod_eq_of_lt (by omega)]
  · rw [if_neg he0, Nat.one_mul]

/-! ### Claim theorems -/

/-- C1: for every well-formed numerator n and every well-formed non-zero
divisor d, bn_div(n, d, q, r) succeeds and yields quotient and remainder with
quotient * d + remainder = n and remainder < d; this also holds when only one
of the two outputs is requested (the other passed as NULL), the requested one
still being exactly that value (division and modulus share the one pass). -/
theorem c1_div_correct (n d : BIGNUM) (hn : bn_wf n) (hd : bn_wf d)
    (hdnz : bn_iszero d = false) (wantq wantr : Bool) :
    ∃ qv rv : BIGNUM,
      bn_div n d wantq wantr
        = (BN_ERR.BN_OK, (if wantq then some qv else none), (if wantr then some rv else none))
      ∧ bnval qv * bnval d + bnval rv = bnval n
      ∧ bnval rv < bnval d := by
  obtain ⟨qv, rv, heq, -, -, hq, hr⟩ := bn_div_spec n d hn hd hdnz wantq wantr
  have hdpos : 0 < bnval d := bn_iszero_false_pos d hdnz
  refine ⟨qv, rv, heq, ?_, ?_⟩
  · rw [hq, hr, Nat.mul_comm]
    exact Nat.div_add_mod _ _
  · rw [hr]
    exact Nat.mod_lt _ hdpos

/-- Witness for C1 at the concrete division 0xFEED / 0xBEEF with both
outputs requested. -/
theorem c1_div_correct_witness :
    ∃ qv rv : BIGNUM,
      bn_div [0xFEED, 0, 0, 0] [0xBEEF, 0, 0, 0] true true
        = (BN_ERR.BN_OK, (if true then some qv else none), (if true then some rv else none))
      ∧ bnval qv * bnval [0xBEEF, 0, 0, 0] + bnval rv = bnval [0xFEED, 0, 0, 0]
      ∧ bnval rv < bnval [0xBEEF, 0, 0, 0] :=
  c1_div_correct [0xFEED, 0, 0, 0] [0xBEEF, 0, 0, 0] (by decide) (by decide) (by decide)
    true true

/-- C2 counterexample: bn_mul does NOT always succeed.  For a = 3 and
b = 0xC000000000000000 the second partial addition overflows and bn_mul
returns BN_E_OVERFLOW instead of wrapping. -/
theorem c2_mul_counterexample :
    (bn_mul [3, 0, 0, 0] [0, 0, 0, 0xC000]).1 = BN_ERR.BN_E_OVERFLOW := by decide

/-- C2 (amended): bn_mul may return BN_E_OVERFLOW (propagated from bn_add on
a partial sum); whenever it returns BN_OK the stored result is
a * b mod 2^W.  The 0xFEED * 0xBEEF scenario succeeds with exactly that
value (see the witness). -/
theorem c2_mul_mod_on_success (a b : BIGNUM) (ha : bn_wf a) (hb : bn_wf b)
    (hok : (bn_mul a b).1 = BN_ERR.BN_OK) :
    bnval (bn_mul a b).2 = bnval a * bnval b % 2 ^ BN_BITS :=
  (bn_mul_mod a b ha hb hok).2

/-- Witness for C2 at the multiply scenario 0xFEED * 0xBEEF. -/
theorem c2_mul_mod_on_success_witness :
    bnval (bn_mul [0xFEED, 0, 0, 0] [0xBEEF, 0, 0, 0]).2
      = bnval [0xFEED, 0, 0, 0] * bnval [0xBEEF, 0, 0, 0] % 2 ^ BN_BITS :=
  c2_mul_mod_on_success [0xFEED, 0, 0, 0] [0xBEEF, 0, 0, 0] (by decide) (by decide) (by decide)

/-- C3: evaluation at the failing input.  bn_load_int(2^48) stores the value
exactly (out = [0,0,0,1] represents 2^48, which fits in W = 64 bits) and yet
returns BN_E_OVERFLOW, because the buffer-overrun guard fires as soon as
pos reaches BN_SZ even though the loop is finished; the largest value it
accepts is 2^48 - 1.  The claim says loading any value that fits in W bits
must succeed. -/
theorem c3_load_int_bug :
    bn_load_int (2 ^ 48) = (BN_ERR.BN_E_OVERFLOW, [0, 0, 0, 1])
    ∧ bnval [0, 0, 0, 1] = 2 ^ 48
    ∧ bn_load_int (2 ^ 48 - 1) = (BN_ERR.BN_OK, [0xFFFF, 0xFFFF, 0xFFFF, 0]) := by decide

/-- C4 counterexample: with modulus 1 (non-zero, all intermediate products
fit trivially) and exponent 0, bn_powmod succeeds but returns 1, whereas
base^0 mod 1 = 0. -/
theorem c4_powmod_counterexample :
    (bn_powmod [4, 0, 0, 0] [0, 0, 0, 0] [1, 0, 0, 0]).1 = BN_ERR.BN_OK
    ∧ bn_powmod_fits [4, 0, 0, 0] [0, 0, 0, 0] [1, 0, 0, 0] = true
    ∧ bnval (bn_powmod [4, 0, 0, 0] [0, 0, 0, 0] [1, 0, 0, 0]).2
        ≠ bnval [4, 0, 0, 0] ^ bnval [0, 0, 0, 0] % bnval [1, 0, 0, 0] := by decide

/-- C4 (amended): for all well-formed base, exponent and non-zero modulus
whose intermediate products fit the width (bn_powmod_fits), except for the
single case modulus = 1 with exponent = 0, bn_powmod succeeds with
result = base^exponent mod modulus. -/
theorem c4_powmod_correct (base exponent modulus : BIGNUM) (hb : bn_wf base)
    (he : bn_wf exponent) (hm : bn_wf modulus)
    (hmnz : bn_iszero modulus = false)
    (hfits : bn_powmod_fits base exponent modulus = true)
    (hnot : ¬ (bnval modulus = 1 ∧ bnval exponent = 0)) :
    (bn_powmod base exponent modulus).1 = BN_ERR.BN_OK
    ∧ bnval (bn_powmod base exponent modulus).2
        = bnval base ^ bnval exponent % bnval modulus :=
  ⟨(bn_powmod_spec base exponent modulus hb he hm hmnz hfits hnot).1,
   (bn_powmod_spec base exponent modulus hb he hm hmnz hfits hnot).2.2⟩

/-- Witness for C4 at the textbook scenario 4^13 mod 497 = 445. -/
theorem c4_powmod_correct_witness :
    (bn_powmod [4, 0, 0, 0] [13, 0, 0, 0] [497, 0, 0, 0]).1 = BN_ERR.BN_OK
    ∧ bnval (bn_powmod [4, 0, 0, 0] [13, 0, 0, 0] [497, 0, 0, 0]).2 = 445 := by
  have h := c4_powmod_correct [4, 0, 0, 0] [13, 0, 0, 0] [497, 0, 0, 0]
    (by decide) (by decide) (by decide) (by decide) (by decide) (by decide)
  exact ⟨h.1, h.2.trans (by decide)⟩

/-- C5: bn_add returns BN_E_OVERFLOW exactly when the mathematical sum does
not fit in W bits, returns BN_OK exactly when it does, and in either case
the output holds the truncated low-order W bits (a + b) mod 2^W. -/
theorem c5_add_overflow (a b : BIGNUM) (ha : bn_wf a) (hb : bn_wf b) :
    ((bn_add a b).1 = BN_ERR.BN_E_OVERFLOW ↔ 2 ^ BN_BITS ≤ bnval a + bnval b)
    ∧ ((bn_add a b).1 = BN_ERR.BN_OK ↔ bnval a + bnval b < 2 ^ BN_BITS)
    ∧ bnval (bn_add a b).2 = (bnval a + bnval b) % 2 ^ BN_BITS :=
  ⟨(bn_add_spec a b ha hb).1, (bn_add_spec a b ha hb).2.1, (bn_add_spec a b ha hb).2.2.1⟩

/-- Witness for C5 at the overflow scenario: 0xFFFFFFFF + 0xFFFFFFFF
succeeds (fits in 64 bits) and yields 0x1FFFFFFFE = [0xFFFE,0xFFFF,1,0]. -/
theorem c5_add_overflow_witness :
    (((bn_add [0xFFFF, 0xFFFF, 0, 0] [0xFFFF, 0xFFFF, 0, 0]).1 = BN_ERR.BN_E_OVERFLOW
        ↔ 2 ^ BN_BITS ≤ bnval [0xFFFF, 0xFFFF, 0, 0] + bnval [0xFFFF, 0xFFFF, 0, 0])
      ∧ ((bn_add [0xFFFF, 0xFFFF, 0, 0] [0xFFFF, 0xFFFF, 0, 0]).1 = BN_ERR.BN_OK
        ↔ bnval [0xFFFF, 0xFFFF, 0, 0] + bnval [0xFFFF, 0xFFFF, 0, 0] < 2 ^ BN_BITS)
      ∧ bnval (bn_add [0xFFFF, 0xFFFF, 0, 0] [0xFFFF, 0xFFFF, 0, 0]).2
        = (bnval [0xFFFF, 0xFFFF, 0, 0] + bnval [0xFFFF, 0xFFFF, 0, 0]) % 2 ^ BN_BITS)
    ∧ bn_add [0xFFFF, 0xFFFF, 0, 0] [0xFFFF, 0xFFFF, 0, 0]
        = (BN_ERR.BN_OK, [0xFFFE, 0xFFFF, 1, 0]) :=
  ⟨c5_add_overflow [0xFFFF, 0xFFFF, 0, 0] [0xFFFF, 0xFFFF, 0, 0] (by decide) (by decide),
   by decide⟩

/-- C6: with BN_TRAP_NEGATIVE disabled (the default build), bn_sub returns
BN_OK for every pair of inputs, including a < b, and the output holds the
wraparound value (a - b) mod 2^W. -/
theorem c6_sub_wraparound (a b : BIGNUM) (ha : bn_wf a) (hb : bn_wf b) :
    (bn_sub a b).1 = BN_ERR.BN_OK
    ∧ bnval (bn_sub a b).2 = (2 ^ BN_BITS + bnval a - bnval b) % 2 ^ BN_BITS :=
  ⟨(bn_sub_spec a b ha hb).1, (bn_sub_spec a b ha hb).2.1⟩

/-- Witness for C6 with a < b (65536 - 131072 wraps). -/
theorem c6_sub_wraparound_witness :
    ((bn_sub [0, 1, 0, 0] [0, 2, 0, 0]).1 = BN_ERR.BN_OK
      ∧ bnval (bn_sub [0, 1, 0, 0] [0, 2, 0, 0]).2
        = (2 ^ BN_BITS + bnval [0, 1, 0, 0] - bnval [0, 2, 0, 0]) % 2 ^ BN_BITS)
    ∧ bn_sub [0, 1, 0, 0] [0, 2, 0, 0]
        = (BN_ERR.BN_OK, [0, 0xFFFF, 0xFFFF, 0xFFFF]) :=
  ⟨c6_sub_wraparound [0, 1, 0, 0] [0, 2, 0, 0] (by decide) (by decide), by decide⟩

/-- C7: dividing by the all-zero bignum fails with BN_E_DIVIDE_BY_ZERO for
every numerator and both output requests; the check happens before any
computation and neither output buffer is written (both come back `none`). -/
theorem c7_div_by_zero (n d : BIGNUM) (hd : bn_iszero d = true) (wantq wantr : Bool) :
    bn_div n d wantq wantr = (BN_ERR.BN_E_DIVIDE_BY_ZERO, none, none) := by
  rw [bn_div, if_pos hd]

/-- Witness for C7 at n = 0xFEED, d = 0. -/
theorem c7_div_by_zero_witness :
    bn_div [0xFEED, 0, 0, 0] [0, 0, 0, 0] true true
      = (BN_ERR.BN_E_DIVIDE_BY_ZERO, none, none) :=
  c7_div_by_zero [0xFEED, 0, 0, 0] [0, 0, 0, 0] (by decide) true true

/-- C8 counterexample: with exponent zero the loop never runs, so
bn_powmod with a zero modulus returns BN_OK (result = 1) instead of failing
with a divide-by-zero condition, contradicting the claim's "for every
exponent". -/
theorem c8_powmod_counterexample :
    bn_powmod [4, 0, 0, 0] [0, 0, 0, 0] [0, 0, 0, 0] = (BN_ERR.BN_OK, [1, 0, 0, 0]) := by
  decide

/-- C8 (amended): for every well-formed base and every well-formed exponent
whose low bit is set, bn_powmod with the all-zero modulus fails with
BN_E_DIVIDE_BY_ZERO, propagated from the first bn_div call.  The failure is
not detected before output is written: the caller's result buffer already
holds 1, stored by the initial bn_load_int.  (For exponent zero the call
instead succeeds — see the counterexample and C10 — and for even non-zero
exponents the first failing sub-operation is the squaring bn_mul, which can
report BN_E_OVERFLOW instead of divide-by-zero.) -/
theorem c8_powmod_zero_modulus (base exponent : BIGNUM) (hb : bn_wf base)
    (he : bn_wf exponent) (hodd : bn_get_bit exponent 0 = 1) :
    bn_powmod base exponent (List.replicate BN_SZ 0)
      = (BN_ERR.BN_E_DIVIDE_BY_ZERO, [1, 0, 0, 0]) := by
  have hz' : bn_iszero exponent = false := by
    apply bn_iszero_false_of_pos
    have hg := bn_get_bit0 exponent he.2
    rw [hodd] at hg
    omega
  have hone_wf : bn_wf [1, 0, 0, 0] := by decide
  have hfit1 : bnval [1, 0, 0, 0] * bnval base < 2 ^ BN_BITS := by
    have hlt := bnval_wf_lt base hb
    have h1 : bnval [1, 0, 0, 0] = 1 := by decide
    rw [h1, Nat.one_mul]
    exact hlt
  obtain ⟨hpok, -, -⟩ := bn_mul_exact [1, 0, 0, 0] base hone_wf hb hfit1
  have hdv : bn_div (bn_mul [1, 0, 0, 0] base).2 (List.replicate BN_SZ 0) false true
      = (BN_ERR.BN_E_DIVIDE_BY_ZERO, none, none) := by
    rw [bn_div, if_pos (by decide)]
  have hload : bn_load_int 1 = (BN_ERR.BN_OK, [1, 0, 0, 0]) := by decide
  have hpm_eq : bn_powmod base exponent (List.replicate BN_SZ 0)
      = bn_powmod_loop (BN_BITS + 1) (List.replicate BN_SZ 0) [1, 0, 0, 0] base exponent := by
    rw [bn_powmod, hload]
    simp [bn_copy]
  have honestep : ∀ fuel : Nat,
      bn_powmod_loop (fuel + 1) (List.replicate BN_SZ 0) [1, 0, 0, 0] base exponent
        = (BN_ERR.BN_E_DIVIDE_BY_ZERO, [1, 0, 0, 0]) := by
    intro fuel
    simp only [bn_powmod_loop, hz', Bool.false_eq_true, if_false, hodd, reduceIte, if_true,
      hpok, ne_eq, not_true_eq_false, hdv, not_false_eq_true, reduceCtorEq]
  rw [hpm_eq]
  exact honestep BN_BITS

/-- Witness for C8 at base 4, exponent 13 (odd), modulus 0. -/
theorem c8_powmod_zero_modulus_witness :
    bn_powmod [4, 0, 0, 0] [13, 0, 0, 0] (List.replicate BN_SZ 0)
      = (BN_ERR.BN_E_DIVIDE_BY_ZERO, [1, 0, 0, 0]) :=
  c8_powmod_zero_modulus [4, 0, 0, 0] [13, 0, 0, 0] (by decide) (by decide) (by decide)

/-- C9: bn_cmp decides the order of the represented unsigned magnitudes
(first differing limb from most significant down), and consequently
cmp(a,b) = -cmp(b,a) and cmp(a,a) = 0. -/
theorem c9_cmp_order (a b : BIGNUM) (ha : bn_wf a) (hb : bn_wf b) :
    (bn_cmp a b = -1 ↔ bnval a < bnval b)
    ∧ (bn_cmp a b = 0 ↔ bnval a = bnval b)
    ∧ (bn_cmp a b = 1 ↔ bnval b < bnval a)
    ∧ bn_cmp a b = - bn_cmp b a
    ∧ bn_cmp a a = 0 := by
  obtain ⟨h1, h2, h3⟩ := bn_cmp_spec a b ha hb
  obtain ⟨g1, g2, g3⟩ := bn_cmp_spec b a hb ha
  refine ⟨h1, h2, h3, ?_, bn_cmp_self a⟩
  rcases Nat.lt_trichotomy (bnval a) (bnval b) with hlt | heq | hgt
  · have e1 := h1.mpr hlt
    have e2 := g3.mpr hlt
    omega
  · have e1 := h2.mpr heq
    have e2 := g2.mpr heq.symm
    omega
  · have e1 := h3.mpr hgt
    have e2 := g1.mpr hgt
    omega

/-- Witness for C9 at a = 0x1FEED, b = 0x1BEEF. -/
theorem c9_cmp_order_witness :
    (bn_cmp [0xFEED, 1, 0, 0] [0xBEEF, 1, 0, 0] = -1
        ↔ bnval [0xFEED, 1, 0, 0] < bnval [0xBEEF, 1, 0, 0])
    ∧ (bn_cmp [0xFEED, 1, 0, 0] [0xBEEF, 1, 0, 0] = 0
        ↔ bnval [0xFEED, 1, 0, 0] = bnval [0xBEEF, 1, 0, 0])
    ∧ (bn_cmp [0xFEED, 1, 0, 0] [0xBEEF, 1, 0, 0] = 1
        ↔ bnval [0xBEEF, 1, 0, 0] < bnval [0xFEED, 1, 0, 0])
    ∧ bn_cmp [0xFEED, 1, 0, 0] [0xBEEF, 1, 0, 0]
        = - bn_cmp [0xBEEF, 1, 0, 0] [0xFEED, 1, 0, 0]
    ∧ bn_cmp [0xFEED, 1, 0, 0] [0xFEED, 1, 0, 0] = 0 :=
  c9_cmp_order [0xFEED, 1, 0, 0] [0xBEEF, 1, 0, 0] (by decide) (by decide)

/-- C10: bn_powmod with a zero exponent returns BN_OK and result 1 for every
base and every modulus, including the zero modulus (no divide-by-zero is
reported: the loop body never runs) and modulus one, where the returned 1
differs from the mathematical base^0 mod 1 = 0. -/
theorem c10_powmod_zero_exponent (base modulus : BIGNUM) :
    bn_powmod base (List.replicate BN_SZ 0) modulus = (BN_ERR.BN_OK, [1, 0, 0, 0])
    ∧ bnval [1, 0, 0, 0] = 1
    ∧ bnval [1, 0, 0, 0] ≠ bnval base ^ 0 % 1 := by
  have hone_val : bnval [1, 0, 0, 0] = 1 := by decide
  refine ⟨?_, hone_val, ?_⟩
  · have hload : bn_load_int 1 = (BN_ERR.BN_OK, [1, 0, 0, 0]) := by decide
    have hpm_eq : bn_powmod base (List.replicate BN_SZ 0) modulus
        = bn_powmod_loop (BN_BITS + 1) modulus [1, 0, 0, 0] base (List.replicate BN_SZ 0) := by
      rw [bn_powmod, hload]
      simp [bn_copy]
    have honestep : ∀ fuel : Nat,
        bn_powmod_loop (fuel + 1) modulus [1, 0, 0, 0] base (List.replicate BN_SZ 0)
          = (BN_ERR.BN_OK, [1, 0, 0, 0]) := by
      intro fuel
      simp only [bn_powmod_loop,
        if_pos (show bn_iszero (List.replicate BN_SZ 0) = true by decide)]
    rw [hpm_eq]
    exact honestep BN_BITS
  · rw [hone_val, pow_zero]
    norm_num
